import Mathlib

/-!
Verification development for `gitlab-ls.py`, a GitLab language server.

The Python source is shallowly embedded: Python `dict`s become association
lists (first occurrence wins on lookup, assignment replaces in place or
appends), fallible operations return `Option`/`Except`, and the wall clock
is threaded explicitly as a counter into a `clock : Nat → String` stream
(one tick per `get_timestamp()` call in the source).
-/

set_option autoImplicit false

namespace GitlabLs

/-! ## Dictionaries (Python `dict` as association list)

`dictLookup` returns the value of the first entry with the given key.
`dictInsert` models `d[k] = v`: replace the (first) existing entry in
place, otherwise append at the end, preserving insertion order.
`dictMerge` models `d |= new`: assign every entry of `new` into `d`
in order. -/

def dictLookup {α β : Type} [DecidableEq α] : List (α × β) → α → Option β
  | [], _ => none
  | (k', v) :: rest, k => if k' = k then some v else dictLookup rest k

def dictInsert {α β : Type} [DecidableEq α] : List (α × β) → α → β → List (α × β)
  | [], k, v => [(k, v)]
  | (k', v') :: rest, k, v =>
    if k' = k then (k, v) :: rest else (k', v') :: dictInsert rest k v

def dictMerge {α β : Type} [DecidableEq α] (d new : List (α × β)) : List (α × β) :=
  new.foldl (fun acc kv => dictInsert acc kv.1 kv.2) d

/-- The keys of a dictionary, in order. -/
def dictKeys {α β : Type} (d : List (α × β)) : List α := d.map Prod.fst

@[simp] theorem dictLookup_nil {α β : Type} [DecidableEq α] (k : α) :
    dictLookup ([] : List (α × β)) k = none := rfl

@[simp] theorem dictLookup_cons {α β : Type} [DecidableEq α]
    (k' : α) (v : β) (rest : List (α × β)) (k : α) :
    dictLookup ((k', v) :: rest) k = if k' = k then some v else dictLookup rest k := rfl

@[simp] theorem dictMerge_nil {α β : Type} [DecidableEq α] (d : List (α × β)) :
    dictMerge d [] = d := rfl

theorem dictLookup_insert_self {α β : Type} [DecidableEq α]
    (d : List (α × β)) (k : α) (v : β) :
    dictLookup (dictInsert d k v) k = some v := by
  induction d with
  | nil => simp [dictInsert]
  | cons kv rest ih =>
    obtain ⟨k', v'⟩ := kv
    by_cases h : k' = k <;> simp [dictInsert, h, ih]

theorem dictLookup_insert_ne {α β : Type} [DecidableEq α]
    (d : List (α × β)) (k k' : α) (v : β) (h : k ≠ k') :
    dictLookup (dictInsert d k v) k' = dictLookup d k' := by
  induction d with
  | nil => simp [dictInsert, h]
  | cons kv rest ih =>
    obtain ⟨k₀, v₀⟩ := kv
    by_cases hk : k₀ = k
    · subst hk
      simp [dictInsert, h]
    · simp [dictInsert, hk, ih]

theorem dictLookup_insert {α β : Type} [DecidableEq α]
    (d : List (α × β)) (k k' : α) (v : β) :
    dictLookup (dictInsert d k v) k' =
      if k = k' then some v else dictLookup d k' := by
  by_cases h : k = k'
  · subst h; simp [dictLookup_insert_self]
  · simp [h, dictLookup_insert_ne d k k' v h]

theorem dictLookup_eq_none_of_not_mem {α β : Type} [DecidableEq α]
    (d : List (α × β)) (k : α) (h : ¬ k ∈ dictKeys d) :
    dictLookup d k = none := by
  induction d with
  | nil => rfl
  | cons kv rest ih =>
    obtain ⟨k₀, v₀⟩ := kv
    simp only [dictKeys, List.map_cons, List.mem_cons, not_or] at h
    have h1 : ¬ k₀ = k := fun hh => h.1 hh.symm
    simp only [dictLookup_cons, if_neg h1]
    exact ih (by simpa [dictKeys] using h.2)

/-- Lookup in a fold of insertions splits into the freshly built part and
the original dictionary. -/
theorem dictLookup_foldl_insert {α β : Type} [DecidableEq α]
    (items : List (α × β)) (d : List (α × β)) (k : α) :
    dictLookup (items.foldl (fun acc kv => dictInsert acc kv.1 kv.2) d) k =
      (dictLookup (items.foldl (fun acc kv => dictInsert acc kv.1 kv.2) []) k).elim
        (dictLookup d k) some := by
  induction items generalizing d with
  | nil => simp
  | cons kv rest ih =>
    obtain ⟨k₀, v₀⟩ := kv
    simp only [List.foldl_cons]
    rw [ih (dictInsert d k₀ v₀), ih (dictInsert ([] : List (α × β)) k₀ v₀)]
    cases hA : dictLookup (List.foldl (fun acc kv => dictInsert acc kv.1 kv.2) [] rest) k with
    | some a => simp [hA]
    | none =>
      simp only [hA, Option.elim]
      rw [dictLookup_insert, dictLookup_insert]
      by_cases h : k₀ = k <;> simp [h]

/-- Lookup after a merge: an entry of the merged-in dictionary wins,
otherwise the original binding survives.  The merged-in dictionary is
required to have no duplicate keys (true of every Python `dict`). -/
theorem dictLookup_merge {α β : Type} [DecidableEq α]
    (d new : List (α × β)) (k : α) (hnd : (dictKeys new).Nodup) :
    dictLookup (dictMerge d new) k =
      (dictLookup new k).elim (dictLookup d k) some := by
  induction new generalizing d with
  | nil => simp
  | cons kv rest ih =>
    obtain ⟨k₀, v₀⟩ := kv
    simp only [dictKeys, List.map_cons, List.nodup_cons] at hnd
    simp only [dictMerge, List.foldl_cons]
    rw [show List.foldl (fun acc kv => dictInsert acc kv.1 kv.2) (dictInsert d k₀ v₀) rest =
          dictMerge (dictInsert d k₀ v₀) rest from rfl]
    rw [ih (dictInsert d k₀ v₀) hnd.2]
    by_cases h : k₀ = k
    · have hnone : dictLookup rest k = none := by
        apply dictLookup_eq_none_of_not_mem
        rw [← h]
        simpa [dictKeys] using hnd.1
      simp [hnone, dictLookup_insert, h]
    · cases hrest : dictLookup rest k <;>
        simp [dictLookup_insert, h, hrest]

theorem dictKeys_insert_of_mem {α β : Type} [DecidableEq α]
    (d : List (α × β)) (k : α) (v : β) (h : k ∈ dictKeys d) :
    dictKeys (dictInsert d k v) = dictKeys d := by
  induction d with
  | nil => simp [dictKeys] at h
  | cons kv rest ih =>
    obtain ⟨k₀, v₀⟩ := kv
    by_cases hk : k₀ = k
    · subst hk; simp [dictInsert, dictKeys]
    · simp only [dictKeys, List.map_cons, List.mem_cons] at h
      rcases h with h | h
      · exact absurd h.symm hk
      · have := ih (by simpa [dictKeys] using h)
        simp only [dictInsert, if_neg hk]
        simp only [dictKeys, List.map_cons] at this ⊢
        rw [this]

theorem dictKeys_insert_of_not_mem {α β : Type} [DecidableEq α]
    (d : List (α × β)) (k : α) (v : β) (h : ¬ k ∈ dictKeys d) :
    dictKeys (dictInsert d k v) = dictKeys d ++ [k] := by
  induction d with
  | nil => simp [dictInsert, dictKeys]
  | cons kv rest ih =>
    obtain ⟨k₀, v₀⟩ := kv
    simp only [dictKeys, List.map_cons, List.mem_cons, not_or] at h
    have h1 : ¬ k₀ = k := fun hh => h.1 hh.symm
    have := ih (by simpa [dictKeys] using h.2)
    simp only [dictInsert, if_neg h1]
    simp only [dictKeys, List.map_cons, List.cons_append] at this ⊢
    rw [this]

theorem dictKeys_nodup_insert {α β : Type} [DecidableEq α]
    (d : List (α × β)) (k : α) (v : β) (h : (dictKeys d).Nodup) :
    (dictKeys (dictInsert d k v)).Nodup := by
  by_cases hm : k ∈ dictKeys d
  · rw [dictKeys_insert_of_mem d k v hm]; exact h
  · rw [dictKeys_insert_of_not_mem d k v hm]
    simpa [List.nodup_append] using ⟨h, hm⟩

theorem mem_dictKeys_insert {α β : Type} [DecidableEq α]
    (d : List (α × β)) (k k' : α) (v : β) :
    k' ∈ dictKeys (dictInsert d k v) ↔ k' = k ∨ k' ∈ dictKeys d := by
  by_cases hm : k ∈ dictKeys d
  · rw [dictKeys_insert_of_mem d k v hm]
    constructor
    · exact Or.inr
    · rintro (rfl | h)
      · exact hm
      · exact h
  · rw [dictKeys_insert_of_not_mem d k v hm]
    simp [or_comm]

theorem dictLookup_isSome_iff_mem {α β : Type} [DecidableEq α]
    (d : List (α × β)) (k : α) :
    (dictLookup d k).isSome ↔ k ∈ dictKeys d := by
  induction d with
  | nil => simp [dictKeys]
  | cons kv rest ih =>
    obtain ⟨k₀, v₀⟩ := kv
    by_cases h : k₀ = k
    · simp [dictLookup, dictKeys, h]
    · have h' : ¬ k = k₀ := fun hh => h hh.symm
      simp [dictLookup, dictKeys, h, h', ih]

end GitlabLs

namespace GitlabLs

/-! ## Decimal strings for dictionary keys

`json.dump` stringifies integer dictionary keys with Python `str`, and
`dataclasses_json`'s `from_dict` turns them back into `int`s.  We model the
decimal rendering with a fuelled digit extraction (so the kernel can
evaluate it) and the parse as "optional minus sign followed by decimal
digits" — the exact shape `str` produces. -/

/-- Little-endian decimal digits of `n`; `fuel ≥ n` suffices. -/
def natDigitsAux : Nat → Nat → List Nat
  | 0, _ => []
  | fuel + 1, n => if n = 0 then [] else n % 10 :: natDigitsAux fuel (n / 10)

def decDigitChar (d : Nat) : Char := Char.ofNat (48 + d)

/-- The decimal rendering of a natural number, as a list of characters. -/
def natChars (n : Nat) : List Char :=
  if n = 0 then ['0'] else ((natDigitsAux n n).map decDigitChar).reverse

/-- Python `str` on a nonnegative `int`. -/
def natStr (n : Nat) : String := String.mk (natChars n)

/-- Python `str` on an `int`. -/
def intStr (i : Int) : String :=
  if i < 0 then String.mk ('-' :: natChars i.natAbs) else natStr i.toNat

/-- Python `int()` on a string of decimal digits (no sign). -/
def parseNatChars (cs : List Char) : Option Nat :=
  if cs ≠ [] ∧ cs.all Char.isDigit then
    some (cs.foldl (fun a c => a * 10 + (c.toNat - 48)) 0)
  else none

/-- Python `int()` on the canonical decimal form an `int` serializes to
(optional minus sign then digits; `int()` also tolerates surrounding
whitespace and a plus sign, which `str` never emits). -/
def parseInt (s : String) : Option Int :=
  match s.data with
  | [] => none
  | c :: rest =>
    if c = '-' then (parseNatChars rest).map (fun n => -(n : Int))
    else (parseNatChars (c :: rest)).map Int.ofNat

theorem natDigitsAux_eq_digits (fuel n : Nat) (h : n ≤ fuel) :
    natDigitsAux fuel n = Nat.digits 10 n := by
  induction fuel generalizing n with
  | zero =>
    interval_cases n
    simp [natDigitsAux]
  | succ fuel ih =>
    by_cases hn : n = 0
    · simp [natDigitsAux, hn]
    · have hpos : 0 < n := Nat.pos_of_ne_zero hn
      rw [natDigitsAux, if_neg hn, Nat.digits_def' (by norm_num : (1:Nat) < 10) hpos]
      congr 1
      exact ih _ (by omega)

theorem decDigit_roundtrip (d : Nat) (h : d < 10) :
    (decDigitChar d).isDigit = true ∧ (decDigitChar d).toNat - 48 = d := by
  interval_cases d <;> exact ⟨by decide, by decide⟩

theorem foldl_decDigits (ds : List Nat) (a : Nat) (h : ∀ d ∈ ds, d < 10) :
    ((ds.map decDigitChar).reverse.foldl (fun a c => a * 10 + (c.toNat - 48)) a) =
      Nat.ofDigits 10 ds + a * 10 ^ ds.length := by
  induction ds generalizing a with
  | nil => simp [Nat.ofDigits]
  | cons d ds ih =>
    have hd : d < 10 := h d (List.mem_cons_self d ds)
    have hds : ∀ x ∈ ds, x < 10 := fun x hx => h x (List.mem_cons_of_mem d hx)
    simp only [List.map_cons, List.reverse_cons, List.foldl_append, List.foldl_cons,
      List.foldl_nil]
    rw [ih a hds, (decDigit_roundtrip d hd).2, Nat.ofDigits_cons, List.length_cons]
    ring

theorem parseNatChars_natChars (n : Nat) : parseNatChars (natChars n) = some n := by
  by_cases hn : n = 0
  · subst hn; decide
  · have hdig : ∀ d ∈ Nat.digits 10 n, d < 10 := fun d hd =>
      Nat.digits_lt_base (by norm_num) hd
    have hne : Nat.digits 10 n ≠ [] := Nat.digits_ne_nil_iff_ne_zero.mpr hn
    rw [natChars, if_neg hn, natDigitsAux_eq_digits n n le_rfl]
    rw [parseNatChars, if_pos, foldl_decDigits _ 0 hdig]
    · simp [Nat.ofDigits_digits]
    constructor
    · simp [hne]
    · rw [List.all_eq_true]
      intro c hc
      simp only [List.mem_reverse, List.mem_map] at hc
      obtain ⟨d, hd, rfl⟩ := hc
      exact (decDigit_roundtrip d (hdig d hd)).1

theorem natChars_ne_nil (n : Nat) : natChars n ≠ [] := by
  by_cases hn : n = 0
  · subst hn; decide
  · rw [natChars, if_neg hn, natDigitsAux_eq_digits n n le_rfl]
    have hne : Nat.digits 10 n ≠ [] := Nat.digits_ne_nil_iff_ne_zero.mpr hn
    simp [hne]

theorem natChars_all_digits (n : Nat) : ∀ c ∈ natChars n, c.isDigit = true := by
  by_cases hn : n = 0
  · subst hn
    intro c hc
    have h0 : natChars 0 = ['0'] := by decide
    rw [h0, List.mem_singleton] at hc
    subst hc; decide
  · intro c hc
    rw [natChars, if_neg hn, natDigitsAux_eq_digits n n le_rfl] at hc
    simp only [List.mem_reverse, List.mem_map] at hc
    obtain ⟨d, hd, rfl⟩ := hc
    exact (decDigit_roundtrip d (Nat.digits_lt_base (by norm_num) hd)).1

theorem parseInt_of_all_digits (cs : List Char)
    (h : ∀ c ∈ cs, c.isDigit = true) (hne : cs ≠ []) :
    parseInt (String.mk cs) = (parseNatChars cs).map Int.ofNat := by
  cases cs with
  | nil => exact absurd rfl hne
  | cons c rest =>
    have hc : c.isDigit = true := h c (List.mem_cons_self _ _)
    have hcm : c ≠ '-' := by
      intro hh
      rw [hh] at hc
      exact absurd hc (by decide)
    show (if c = '-' then (parseNatChars rest).map (fun n => -(n : Int))
      else (parseNatChars (c :: rest)).map Int.ofNat) = (parseNatChars (c :: rest)).map Int.ofNat
    rw [if_neg hcm]

/-- Serializing an `int` key with `str` and parsing it back with `int` is
the identity. -/
theorem parseInt_intStr (i : Int) : parseInt (intStr i) = some i := by
  by_cases hneg : i < 0
  · rw [intStr, if_pos hneg]
    show (if '-' = '-' then (parseNatChars (natChars i.natAbs)).map (fun n => -(n : Int))
      else (parseNatChars ('-' :: natChars i.natAbs)).map Int.ofNat) = some i
    rw [if_pos rfl, parseNatChars_natChars i.natAbs]
    show some (-(i.natAbs : Int)) = some i
    rw [show -(i.natAbs : Int) = i from by omega]
  · rw [intStr, if_neg hneg, natStr]
    rw [parseInt_of_all_digits _ (natChars_all_digits _) (natChars_ne_nil _)]
    rw [parseNatChars_natChars]
    have hval : Int.ofNat i.toNat = i := by
      rw [Int.ofNat_eq_coe]
      omega
    show some (Int.ofNat i.toNat) = some i
    rw [hval]

end GitlabLs

namespace GitlabLs

/-! ## Data model

`GitlabObject` and `GitlabProject` mirror the two `@dataclass_json`
dataclasses of the source.  `SerProject` is the JSON form produced by
`GitlabProject.to_dict`: the two record mappings get their integer keys
stringified (as `json.dump` does), everything else is kept as is. -/

structure GitlabObject where
  id : Int
  title : String
  author : String
  state : String
  description : String
deriving DecidableEq, Repr

structure GitlabProject where
  id : Int
  path : String
  last_update : String
  issues : List (Int × GitlabObject)
  merge_requests : List (Int × GitlabObject)
deriving DecidableEq, Repr

/-- The JSON-side shape of one serialized project: record mappings keyed by
the stringified IID. -/
structure SerProject where
  id : Int
  path : String
  last_update : String
  issues : List (String × GitlabObject)
  merge_requests : List (String × GitlabObject)
deriving DecidableEq, Repr

/-- `GitlabProject.to_dict` (via `dataclass_json`): stringify the keys of
the two record mappings. -/
def GitlabProject.to_dict (p : GitlabProject) : SerProject :=
  { id := p.id
    path := p.path
    last_update := p.last_update
    issues := p.issues.map (fun kv => (intStr kv.1, kv.2))
    merge_requests := p.merge_requests.map (fun kv => (intStr kv.1, kv.2)) }

/-- Traverse a list with a fallible function, failing on the first failure
(the way `dataclass_json` decoding raises on a bad entry). -/
def optionTraverse {α β : Type} (f : α → Option β) : List α → Option (List β)
  | [] => some []
  | x :: xs =>
    match f x with
    | none => none
    | some y =>
      match optionTraverse f xs with
      | none => none
      | some ys => some (y :: ys)

/-- `GitlabProject.from_dict` (via `dataclass_json`): parse the stringified
keys of the two record mappings back into `int`s. -/
def GitlabProject.from_dict (s : SerProject) : Option GitlabProject :=
  match optionTraverse (fun kv => (parseInt kv.1).map (fun k => (k, kv.2))) s.issues,
    optionTraverse (fun kv => (parseInt kv.1).map (fun k => (k, kv.2))) s.merge_requests with
  | some issues, some mrs =>
    some { id := s.id, path := s.path, last_update := s.last_update,
           issues := issues, merge_requests := mrs }
  | _, _ => none

/-- `save_state`: serialize every in-memory project, keyed by its name in
the in-memory map (`for name, project in self.projects.items()`). -/
def save_state (projects : List (String × GitlabProject)) : List (String × SerProject) :=
  projects.map (fun kv => (kv.1, kv.2.to_dict))

/-- Deserializing every entry of a stored snapshot, the way the cache pass
does per entry. -/
def deserializeState (cache : List (String × SerProject)) :
    Option (List (String × GitlabProject)) :=
  optionTraverse (fun kv => (GitlabProject.from_dict kv.2).map (fun p => (kv.1, p))) cache

theorem optionTraverse_map_roundtrip {α β : Type} (f : α → Option β) (g : β → α)
    (h : ∀ b, f (g b) = some b) (l : List β) :
    optionTraverse f (l.map g) = some l := by
  induction l with
  | nil => rfl
  | cons x xs ih =>
    simp only [List.map_cons, optionTraverse, h x, ih]

/-- A record mapping survives the stringify-keys / parse-keys roundtrip. -/
theorem entries_roundtrip (entries : List (Int × GitlabObject)) :
    optionTraverse (fun kv => (parseInt kv.1).map (fun k => (k, kv.2)))
      (entries.map (fun kv => (intStr kv.1, kv.2))) = some entries := by
  apply optionTraverse_map_roundtrip
  intro kv
  simp [parseInt_intStr kv.1]

theorem from_dict_to_dict (p : GitlabProject) :
    GitlabProject.from_dict p.to_dict = some p := by
  unfold GitlabProject.from_dict GitlabProject.to_dict
  simp only [entries_roundtrip]

end GitlabLs

namespace GitlabLs

/-- Claim C3: persistence round-trips — saving the in-memory project set
(record mappings keyed by stringified IID) and then deserializing every
entry of the snapshot, as the cache pass does, restores the project set
exactly, with the record mappings again keyed by integer IID. -/
theorem save_state_roundtrip (projects : List (String × GitlabProject)) :
    deserializeState (save_state projects) = some projects := by
  unfold deserializeState save_state
  apply optionTraverse_map_roundtrip
  intro kv
  simp [from_dict_to_dict kv.2]

/-! ## The remote service

Remote calls made by the source (`python-gitlab` client) are modelled as
fields of a `Remote` structure: `project.issues.list(updated_after=...)`,
`project.issues.list(get_all=True)`, the merge-request equivalents, and the
full catalog `client.projects.list(get_all=True)`.  A remote issue or merge
request carries the fields the source reads.  The `if self.client is None:
return` guards of `update_project` and `fetch_projects` are not modelled:
the INITIALIZE handler installs the client before `load_projects` runs, so
the guards are dead on every synchronization pass. -/

structure RemoteObjectData where
  iid : Int
  title : String
  authorName : String
  state : String
  description : String
deriving DecidableEq, Repr

structure CatalogEntry where
  id : Int
  path_with_namespace : String
deriving DecidableEq, Repr

structure Remote where
  issuesUpdatedAfter : Int → String → List RemoteObjectData
  issuesAll : Int → List RemoteObjectData
  mergeRequestsUpdatedAfter : Int → String → List RemoteObjectData
  mergeRequestsAll : Int → List RemoteObjectData
  projectsList : List CatalogEntry

def toGitlabObject (r : RemoteObjectData) : GitlabObject :=
  { id := r.iid, title := r.title, author := r.authorName,
    state := r.state, description := r.description }

/-- `get_issue_dict`: build a dict keyed by IID from the remote response,
in response order (later duplicates overwrite earlier ones, as in a Python
dict comprehension by assignment). -/
def get_issue_dict (issues : List RemoteObjectData) : List (Int × GitlabObject) :=
  issues.foldl (fun d issue => dictInsert d issue.iid (toGitlabObject issue)) []

/-- `get_merge_request_dict` builds its dict the same way. -/
def get_merge_request_dict (mrs : List RemoteObjectData) : List (Int × GitlabObject) :=
  mrs.foldl (fun d mr => dictInsert d mr.iid (toGitlabObject mr)) []

/-- `update_project`: look the project up (a missing key would raise), merge
the remote records updated after `last_update` into both mappings with
`|=`, stamp `last_update` with the current time, and store the project
back.  `now` is the value `get_timestamp()` returns during this call. -/
def update_project (remote : Remote) (now : String)
    (projects : List (String × GitlabProject)) (project_name : String) :
    Option (List (String × GitlabProject)) :=
  match dictLookup projects project_name with
  | none => none
  | some project =>
    let project₁ :=
      { project with
          issues := dictMerge project.issues
            (get_issue_dict (remote.issuesUpdatedAfter project.id project.last_update)) }
    let project₂ :=
      { project₁ with
          merge_requests := dictMerge project₁.merge_requests
            (get_merge_request_dict
              (remote.mergeRequestsUpdatedAfter project.id project.last_update)) }
    let project₃ := { project₂ with last_update := now }
    some (dictInsert projects project_name project₃)

theorem get_issue_dict_keys_nodup (issues : List RemoteObjectData) :
    (dictKeys (get_issue_dict issues)).Nodup := by
  unfold get_issue_dict
  generalize hd : ([] : List (Int × GitlabObject)) = d
  have hwf : (dictKeys d).Nodup := by rw [← hd]; simp [dictKeys]
  clear hd
  induction issues generalizing d with
  | nil => exact hwf
  | cons i rest ih => exact ih _ (dictKeys_nodup_insert _ _ _ hwf)

theorem get_merge_request_dict_keys_nodup (mrs : List RemoteObjectData) :
    (dictKeys (get_merge_request_dict mrs)).Nodup :=
  get_issue_dict_keys_nodup mrs

end GitlabLs

namespace GitlabLs

/-- Claim C1: a refresh merges the remote's records into the existing
mappings by last-write-wins on IID — a returned IID's record replaces the
existing one, an IID not returned keeps its previous record, and no record
is ever removed. -/
theorem update_project_last_write_wins (remote : Remote) (now : String)
    (projects : List (String × GitlabProject)) (name : String) (p : GitlabProject)
    (h : dictLookup projects name = some p) :
    ∃ p',
      update_project remote now projects name = some (dictInsert projects name p') ∧
      (∀ iid,
        dictLookup p'.issues iid =
          (dictLookup (get_issue_dict (remote.issuesUpdatedAfter p.id p.last_update)) iid).elim
            (dictLookup p.issues iid) some) ∧
      (∀ iid,
        dictLookup p'.merge_requests iid =
          (dictLookup (get_merge_request_dict
            (remote.mergeRequestsUpdatedAfter p.id p.last_update)) iid).elim
            (dictLookup p.merge_requests iid) some) ∧
      (∀ iid, (dictLookup p.issues iid).isSome → (dictLookup p'.issues iid).isSome) ∧
      (∀ iid, (dictLookup p.merge_requests iid).isSome →
        (dictLookup p'.merge_requests iid).isSome) := by
  refine ⟨{ p with
      issues := dictMerge p.issues
        (get_issue_dict (remote.issuesUpdatedAfter p.id p.last_update)),
      merge_requests := dictMerge p.merge_requests
        (get_merge_request_dict (remote.mergeRequestsUpdatedAfter p.id p.last_update)),
      last_update := now }, ?_, ?_, ?_, ?_, ?_⟩
  · unfold update_project
    rw [h]
  · intro iid
    exact dictLookup_merge _ _ _ (get_issue_dict_keys_nodup _)
  · intro iid
    exact dictLookup_merge _ _ _ (get_merge_request_dict_keys_nodup _)
  · intro iid hsome
    rw [dictLookup_merge _ _ _ (get_issue_dict_keys_nodup _)]
    cases hn : dictLookup (get_issue_dict (remote.issuesUpdatedAfter p.id p.last_update)) iid
    · simpa using hsome
    · simp
  · intro iid hsome
    rw [dictLookup_merge _ _ _ (get_merge_request_dict_keys_nodup _)]
    cases hn : dictLookup (get_merge_request_dict
      (remote.mergeRequestsUpdatedAfter p.id p.last_update)) iid
    · simpa using hsome
    · simp

/-! Concrete instances used as witnesses: the §8 end-to-end scenario of the
spec (cached closed issue 7, refresh returns issue 7 reopened plus new
issue 9). -/

def exObjClosed7 : GitlabObject :=
  { id := 7, title := "seven", author := "al", state := "closed", description := "old" }

def exData7 : RemoteObjectData :=
  { iid := 7, title := "seven", authorName := "al", state := "opened", description := "new" }

def exData9 : RemoteObjectData :=
  { iid := 9, title := "nine", authorName := "bo", state := "opened", description := "fresh" }

def exProjAB : GitlabProject :=
  { id := 1, path := "a/b", last_update := "2024-01-01T00:00:00",
    issues := [(7, exObjClosed7)], merge_requests := [] }

def exRemoteRefresh : Remote :=
  { issuesUpdatedAfter := fun _ _ => [exData7, exData9]
    issuesAll := fun _ => []
    mergeRequestsUpdatedAfter := fun _ _ => []
    mergeRequestsAll := fun _ => []
    projectsList := [] }

theorem update_project_last_write_wins_witness :
    dictLookup [("a/b", exProjAB)] "a/b" = some exProjAB ∧
    ∃ p',
      update_project exRemoteRefresh "T1" [("a/b", exProjAB)] "a/b" =
        some (dictInsert [("a/b", exProjAB)] "a/b" p') ∧
      (∀ iid,
        dictLookup p'.issues iid =
          (dictLookup (get_issue_dict
            (exRemoteRefresh.issuesUpdatedAfter exProjAB.id exProjAB.last_update)) iid).elim
            (dictLookup exProjAB.issues iid) some) ∧
      (∀ iid,
        dictLookup p'.merge_requests iid =
          (dictLookup (get_merge_request_dict
            (exRemoteRefresh.mergeRequestsUpdatedAfter exProjAB.id exProjAB.last_update)) iid).elim
            (dictLookup exProjAB.merge_requests iid) some) ∧
      (∀ iid, (dictLookup exProjAB.issues iid).isSome →
        (dictLookup p'.issues iid).isSome) ∧
      (∀ iid, (dictLookup exProjAB.merge_requests iid).isSome →
        (dictLookup p'.merge_requests iid).isSome) :=
  ⟨rfl, update_project_last_write_wins exRemoteRefresh "T1" [("a/b", exProjAB)] "a/b"
    exProjAB rfl⟩

end GitlabLs

namespace GitlabLs

/-! ## Persistence: `load_state`

The index file either does not exist (`none`), or exists and its contents
parse (`some (.ok cache)` — `json.load` succeeds; note that `save_state` of
an empty project set writes a file that parses to the empty mapping), or
exists but `json.load` raises (`some (.error e)`).  `load_state` returns
`{}` only on the missing-file branch and otherwise lets the `json.load`
outcome through, errors included. -/

def load_state (indexFile : Option (Except String (List (String × SerProject)))) :
    Except String (List (String × SerProject)) :=
  match indexFile with
  | none => Except.ok []
  | some outcome => outcome

/-- Claim C8 as stated is false: `load_state` also returns the empty
mapping when the snapshot file exists and parses to an empty object — for
instance the file `save_state` writes for an empty project set.  So "empty
result exactly when no file exists" fails in the right-to-left direction. -/
theorem load_state_empty_iff_counterexample :
    ¬ (∀ indexFile : Option (Except String (List (String × SerProject))),
        load_state indexFile = Except.ok [] ↔ indexFile = none) := by
  intro h
  have := (h (some (Except.ok (save_state [])))).mp rfl
  exact Option.noConfusion this

/-- Claim C8, amended: `load_state` returns the empty mapping whenever no
snapshot file exists; when the file exists its parse outcome is returned
unchanged — in particular a parse error propagates instead of falling back
to the empty mapping (but an existing file parsing to an empty object also
yields the empty mapping). -/
theorem load_state_spec
    (indexFile : Option (Except String (List (String × SerProject)))) :
    (indexFile = none → load_state indexFile = Except.ok []) ∧
    (∀ e, indexFile = some (Except.error e) → load_state indexFile = Except.error e) ∧
    (∀ cache, indexFile = some (Except.ok cache) → load_state indexFile = Except.ok cache) := by
  refine ⟨?_, ?_, ?_⟩
  · rintro rfl; rfl
  · rintro e rfl; rfl
  · rintro cache rfl; rfl

theorem load_state_spec_witness :
    (load_state (none : Option (Except String (List (String × SerProject)))) =
      Except.ok []) ∧
    load_state (some (Except.error "corrupt")) = Except.error "corrupt" := by
  constructor
  · exact (load_state_spec none).1 rfl
  · exact (load_state_spec (some (Except.error "corrupt"))).2.1 "corrupt" rfl

end GitlabLs

namespace GitlabLs

/-! ## The URL pattern

`init_gitlab` compiles the pattern `\b`, the base URL, then a slash, then
`([^ ]+)`, then the literal slash-dash-slash separator, then
`(issues|merge_requests)` and finally a slash and `(\d+)\b`.
We model matching of this one pattern directly, with Python `re` semantics:

* `\b` is a word boundary (word characters are alphanumerics and `_`);
* the base URL is spliced in unescaped, so a `.` inside it is the regex
  wildcard (any character but a newline);
* `([^ ]+)` is greedy with backtracking: the longest prefix of non-space
  characters such that the rest of the pattern still matches;
* `(\d+)\b` can only succeed on the maximal digit run (a shorter run would
  put the boundary between two digits);
* the two alternatives of `(issues|merge_requests)` start with different
  letters, so at most one applies at any position. -/

def isWordChar (c : Char) : Bool := c.isAlphanum || c = '_'

def isWordAt (s : List Char) (i : Nat) : Bool :=
  match s.get? i with
  | some c => isWordChar c
  | none => false

def wordBoundaryAt (s : List Char) (i : Nat) : Bool :=
  (match i with
    | 0 => false
    | j + 1 => isWordAt s j) != isWordAt s i

/-- Does the pattern character match the subject character (`.` in the
unescaped base URL is the regex wildcard)? -/
def patternCharMatches (p c : Char) : Bool :=
  if p = '.' then c ≠ '\n' else p = c

/-- Match a literal pattern fragment at a position; returns the position
after the fragment. -/
def matchChars : List Char → List Char → Nat → Option Nat
  | [], _, i => some i
  | p :: ps, s, i =>
    match s.get? i with
    | some c => if patternCharMatches p c then matchChars ps s (i + 1) else none
    | none => none

/-- Length of the run of non-space characters (what `[^ ]+` can consume). -/
def nonSpaceRun : List Char → Nat
  | [] => 0
  | c :: cs => if c = ' ' then 0 else nonSpaceRun cs + 1

/-- Length of the run of decimal digits (what `(\d+)` can consume). -/
def digitRun : List Char → Nat
  | [] => 0
  | c :: cs => if c.isDigit then digitRun cs + 1 else 0

/-- One match of the compiled pattern: the three capture groups and the
span `[startPos, stopPos)`. -/
structure UrlMatch where
  pathChars : List Char
  isIssue : Bool
  digitChars : List Char
  startPos : Nat
  stopPos : Nat
deriving DecidableEq, Repr

/-- Match `(issues|merge_requests)` at a position (alternation tries
`issues` first). -/
def matchKind (s : List Char) (pos : Nat) : Option (Bool × Nat) :=
  match matchChars "issues".data s pos with
  | some p => some (true, p)
  | none =>
    match matchChars "merge_requests".data s pos with
    | some p => some (false, p)
    | none => none

/-- Match the pattern's tail — the dash separator, then
`(issues|merge_requests)`, then a slash, then `(\d+)\b` — at a position;
returns the kind, the digit group and the end position. -/
def matchTail (s : List Char) (pos : Nat) : Option (Bool × List Char × Nat) :=
  (matchChars "/-/".data s pos).bind fun p1 =>
  (matchKind s p1).bind fun kind =>
  (matchChars "/".data s kind.2).bind fun p3 =>
  let dlen := digitRun (s.drop p3)
  if dlen = 0 then none
  else if wordBoundaryAt s (p3 + dlen) then
    some (kind.1, (s.drop p3).take dlen, p3 + dlen)
  else none

/-- Greedy `([^ ]+)`: try the group length `k` first, then backtrack to
shorter lengths. `j` is the group's start position. -/
def tryGroup1 (s : List Char) (j : Nat) : Nat → Option (List Char × Bool × List Char × Nat)
  | 0 => none
  | k + 1 =>
    match matchTail s (j + (k + 1)) with
    | some r => some ((s.drop j).take (k + 1), r.1, r.2.1, r.2.2)
    | none => tryGroup1 s j k

/-- Attempt the whole pattern at position `i` (the way the regex engine
does at each scan position). -/
def matchAt (url : List Char) (s : List Char) (i : Nat) : Option UrlMatch :=
  if wordBoundaryAt s i then
    (matchChars url s i).bind fun j0 =>
    (matchChars "/".data s j0).bind fun j =>
    (tryGroup1 s j (nonSpaceRun (s.drop j))).map fun r =>
      { pathChars := r.1, isIssue := r.2.1, digitChars := r.2.2.1,
        startPos := i, stopPos := r.2.2.2 }
  else none

/-- First match at or after position `i`; `fuel` bounds the scan. -/
def findFromAux (url s : List Char) : Nat → Nat → Option UrlMatch
  | 0, _ => none
  | fuel + 1, i =>
    match matchAt url s i with
    | some m => some m
    | none => findFromAux url s fuel (i + 1)

/-- `re.finditer`: all non-overlapping matches, scanning left to right and
resuming after each match's end. -/
def finditerAux (url s : List Char) : Nat → Nat → List UrlMatch
  | 0, _ => []
  | fuel + 1, i =>
    match findFromAux url s (s.length + 1 - i) i with
    | none => []
    | some m => m :: finditerAux url s fuel m.stopPos

def finditer (url : String) (s : String) : List UrlMatch :=
  finditerAux url.data s.data (s.data.length + 2) 0

/-- `int(m.group(3))` on the digit capture. -/
def digitsToNat (cs : List Char) : Nat :=
  cs.foldl (fun a c => a * 10 + (c.toNat - 48)) 0

/-- `get_gitlab_object_from_url_match`: resolve one (possible) match
against the in-memory project set. -/
def get_gitlab_object_from_url_match (projects : List (String × GitlabProject))
    (m : Option UrlMatch) : Option GitlabObject :=
  m.bind fun m =>
  (dictLookup projects (String.mk m.pathChars)).bind fun project =>
  dictLookup (if m.isIssue then project.issues else project.merge_requests)
    (Int.ofNat (digitsToNat m.digitChars))

/-- `get_gitlab_objects_from_line`: iterate all matches in the line and
keep the resolvable ones with their spans. -/
def get_gitlab_objects_from_line (url : String) (projects : List (String × GitlabProject))
    (line : String) : List (GitlabObject × Nat × Nat) :=
  (finditer url line).foldl
    (fun acc m =>
      (get_gitlab_object_from_url_match projects (some m)).elim acc
        (fun o => acc ++ [(o, m.startPos, m.stopPos)])) []

/-- `get_gitlab_object_from_url`: `re.match` anchors the pattern at the
start of the string (it does not scan). -/
def get_gitlab_object_from_url (url : String) (projects : List (String × GitlabProject))
    (s : String) : Option GitlabObject :=
  get_gitlab_object_from_url_match projects (matchAt url.data s.data 0)

end GitlabLs

namespace GitlabLs

theorem matchChars_le (ps : List Char) (s : List Char) (i j : Nat)
    (h : matchChars ps s i = some j) : i ≤ j := by
  induction ps generalizing i with
  | nil =>
    simp only [matchChars, Option.some_inj] at h
    omega
  | cons p ps ih =>
    unfold matchChars at h
    split at h
    · split at h
      · have := ih (i + 1) h
        omega
      · exact Option.noConfusion h
    · exact Option.noConfusion h

theorem matchKind_le (s : List Char) (pos : Nat) (b : Bool) (p : Nat)
    (h : matchKind s pos = some (b, p)) : pos ≤ p := by
  unfold matchKind at h
  split at h
  · next q hq =>
    simp only [Option.some_inj, Prod.mk.injEq] at h
    exact h.2 ▸ matchChars_le _ _ _ _ hq
  · split at h
    · next q hq =>
      simp only [Option.some_inj, Prod.mk.injEq] at h
      exact h.2 ▸ matchChars_le _ _ _ _ hq
    · exact Option.noConfusion h

theorem matchTail_lt (s : List Char) (pos : Nat) (b : Bool) (ds : List Char) (stop : Nat)
    (h : matchTail s pos = some (b, ds, stop)) : pos < stop := by
  unfold matchTail at h
  simp only [Option.bind_eq_some] at h
  obtain ⟨p1, h1, kind, h2, p3, h3, h⟩ := h
  have e1 := matchChars_le _ _ _ _ h1
  have e2 := matchKind_le _ _ _ _ (by rw [h2] : matchKind s p1 = some (kind.1, kind.2))
  have e3 := matchChars_le _ _ _ _ h3
  simp only [apply_ite (fun o : Option (Bool × List Char × Nat) => o = some (b, ds, stop))] at h
  split at h
  · exact Option.noConfusion h
  · next hdlen =>
    split at h
    · simp only [Option.some_inj, Prod.mk.injEq] at h
      have e4 : stop = p3 + digitRun (s.drop p3) := h.2.2.symm
      omega
    · exact Option.noConfusion h

theorem tryGroup1_lt (s : List Char) (j : Nat) (k : Nat)
    (path : List Char) (b : Bool) (ds : List Char) (stop : Nat)
    (h : tryGroup1 s j k = some (path, b, ds, stop)) : j < stop := by
  induction k with
  | zero => exact Option.noConfusion h
  | succ k ih =>
    unfold tryGroup1 at h
    split at h
    · next r ht =>
      simp only [Option.some_inj, Prod.mk.injEq] at h
      have := matchTail_lt s (j + (k + 1)) r.1 r.2.1 r.2.2
        (by rw [ht] : matchTail s (j + (k + 1)) = some (r.1, r.2.1, r.2.2))
      omega
    · exact ih h

theorem matchAt_spec (url s : List Char) (i : Nat) (m : UrlMatch)
    (h : matchAt url s i = some m) : m.startPos = i ∧ i < m.stopPos := by
  unfold matchAt at h
  split at h
  · simp only [Option.bind_eq_some, Option.map_eq_some'] at h
    obtain ⟨j0, h1, j, h2, r, h3, h⟩ := h
    have e1 := matchChars_le _ _ _ _ h1
    have e2 := matchChars_le _ _ _ _ h2
    have e3 := tryGroup1_lt s j _ r.1 r.2.1 r.2.2.1 r.2.2.2
      (by rw [h3] : tryGroup1 s j (nonSpaceRun (s.drop j)) = some (r.1, r.2.1, r.2.2.1, r.2.2.2))
    subst h
    refine ⟨rfl, ?_⟩
    show i < r.2.2.2
    omega
  · exact Option.noConfusion h

theorem findFromAux_spec (url s : List Char) (fuel : Nat) : ∀ (i : Nat) (m : UrlMatch),
    findFromAux url s fuel i = some m →
    i ≤ m.startPos ∧ m.startPos < m.stopPos := by
  induction fuel with
  | zero => intro i m h; exact Option.noConfusion h
  | succ fuel ih =>
    intro i m h
    unfold findFromAux at h
    split at h
    · next m' hm =>
      simp only [Option.some_inj] at h
      subst h
      have := matchAt_spec _ _ _ _ hm
      omega
    · have := ih (i + 1) m h
      omega

theorem finditerAux_mem_spec (url s : List Char) (fuel : Nat) : ∀ (i : Nat) (m : UrlMatch),
    m ∈ finditerAux url s fuel i →
    i ≤ m.startPos ∧ m.startPos < m.stopPos := by
  induction fuel with
  | zero => intro i m h; simp [finditerAux] at h
  | succ fuel ih =>
    intro i m h
    unfold finditerAux at h
    split at h
    · simp at h
    · next m0 hf =>
      have h0 := findFromAux_spec url s _ i m0 hf
      rcases List.mem_cons.mp h with rfl | htail
      · exact h0
      · have := ih m0.stopPos m htail
        omega

theorem finditerAux_chain (url s : List Char) (fuel : Nat) : ∀ (i : Nat),
    List.Pairwise (fun a b : UrlMatch => a.stopPos ≤ b.startPos)
      (finditerAux url s fuel i) := by
  induction fuel with
  | zero => intro i; simp [finditerAux]
  | succ fuel ih =>
    intro i
    unfold finditerAux
    split
    · simp
    · next m0 hf =>
      refine List.Pairwise.cons ?_ (ih m0.stopPos)
      intro b hb
      exact (finditerAux_mem_spec url s fuel m0.stopPos b hb).1

theorem pairwise_filterMap_of_pairwise {α β : Type} (R : α → α → Prop) (S : β → β → Prop)
    (f : α → Option β) (l : List α)
    (hf : ∀ a b x y, R a b → f a = some x → f b = some y → S x y)
    (h : List.Pairwise R l) : List.Pairwise S (l.filterMap f) := by
  induction l with
  | nil => simp
  | cons a rest ih =>
    rcases h with _ | ⟨ha, hrest⟩
    rw [List.filterMap_cons]
    cases hfa : f a with
    | none => exact ih hrest
    | some x =>
      refine List.Pairwise.cons ?_ (ih hrest)
      intro y hy
      obtain ⟨b, hb, hfb⟩ := List.mem_filterMap.mp hy
      exact hf a b x y (ha b hb) hfa hfb

theorem foldl_append_eq_filterMap {α β γ : Type} (f : α → Option γ) (g : α → γ → β)
    (l : List α) (acc : List β) :
    l.foldl (fun acc m => (f m).elim acc (fun o => acc ++ [g m o])) acc =
      acc ++ l.filterMap (fun m => (f m).map (g m)) := by
  induction l generalizing acc with
  | nil => simp
  | cons a rest ih =>
    simp only [List.foldl_cons, List.filterMap_cons]
    cases hfa : f a with
    | none => simp only [hfa, Option.map_none', Option.elim]; simpa using ih acc
    | some x => simp only [hfa, Option.map_some', Option.elim]; simpa using ih (acc ++ [g a x])

end GitlabLs

namespace GitlabLs

/-- Claim C4: `get_gitlab_objects_from_line` returns exactly one triple
(record, start offset, end offset) per resolvable non-overlapping pattern
match, in left-to-right order; unresolvable matches contribute nothing. -/
theorem get_gitlab_objects_from_line_spec (url : String)
    (projects : List (String × GitlabProject)) (line : String) :
    get_gitlab_objects_from_line url projects line =
      (finditer url line).filterMap
        (fun m => (get_gitlab_object_from_url_match projects (some m)).map
          (fun o => (o, m.startPos, m.stopPos))) ∧
    (∀ x ∈ get_gitlab_objects_from_line url projects line, x.2.1 < x.2.2) ∧
    List.Pairwise (fun x y : GitlabObject × Nat × Nat => x.2.2 ≤ y.2.1)
      (get_gitlab_objects_from_line url projects line) := by
  have heq : get_gitlab_objects_from_line url projects line =
      (finditer url line).filterMap
        (fun m => (get_gitlab_object_from_url_match projects (some m)).map
          (fun o => (o, m.startPos, m.stopPos))) := by
    unfold get_gitlab_objects_from_line
    simpa using foldl_append_eq_filterMap
      (fun m => get_gitlab_object_from_url_match projects (some m))
      (fun m o => (o, m.startPos, m.stopPos)) (finditer url line) []
  refine ⟨heq, ?_, ?_⟩
  · intro x hx
    rw [heq] at hx
    obtain ⟨m, hm, hfm⟩ := List.mem_filterMap.mp hx
    obtain ⟨o, _, rfl⟩ := Option.map_eq_some'.mp hfm
    exact (finditerAux_mem_spec url.data line.data _ 0 m hm).2
  · rw [heq]
    apply pairwise_filterMap_of_pairwise
      (fun a b : UrlMatch => a.stopPos ≤ b.startPos) _ _ _ ?_
      (finditerAux_chain url.data line.data _ 0)
    intro a b x y hR hxa hyb
    obtain ⟨oa, _, rfl⟩ := Option.map_eq_some'.mp hxa
    obtain ⟨ob, _, rfl⟩ := Option.map_eq_some'.mp hyb
    exact hR

/-- Claim C7: `get_gitlab_object_from_url` returns a record exactly when
the pattern matches at the start of the string (no scanning) and the
captured project path, kind and IID resolve in the in-memory index; in
every other case it returns `none` rather than raising. -/
theorem get_gitlab_object_from_url_spec (url : String)
    (projects : List (String × GitlabProject)) (s : String) (o : GitlabObject) :
    get_gitlab_object_from_url url projects s = some o ↔
      ∃ m, matchAt url.data s.data 0 = some m ∧
        ∃ project, dictLookup projects (String.mk m.pathChars) = some project ∧
          dictLookup (if m.isIssue then project.issues else project.merge_requests)
            (Int.ofNat (digitsToNat m.digitChars)) = some o := by
  unfold get_gitlab_object_from_url get_gitlab_object_from_url_match
  simp only [Option.bind_eq_some]

end GitlabLs

namespace GitlabLs

/-! ## The synchronization pass

`load_projects` is modelled as a pure function over an explicit state.
Besides the in-memory project map and the (mutated) requested list, the
state records the `WorkProgress` counter, the progress value reported
after each `advance()` (the `steps` trace), and an event trace used to
talk about the order of the per-entry operations. -/

inductive SyncEvent where
  | deserializeEntry (name : String)
  | insertProject (path : String)
  | refreshProject (path : String)
  | removeRequested (name : String)
  | fetchProject (path : String)
deriving DecidableEq, Repr

inductive SyncError where
  | zeroDivision
  | cacheParseError
  | deserializeError
  | keyError
  | configError
deriving DecidableEq, Repr

structure SyncState where
  projects : List (String × GitlabProject)
  requested : List String
  ctr : Nat
  progressVal : Nat
  steps : List Nat
  events : List SyncEvent
deriving DecidableEq, Repr

/-- `next((i for i in range(len(projects)) if projects[i] == project_name),
None)`: the first index of the requested list holding the given name. -/
def firstIdx (l : List String) (k : String) : Option Nat :=
  match l with
  | [] => none
  | a :: rest => if a = k then some 0 else (firstIdx rest k).map (fun i => i + 1)

/-- The cache pass of `load_projects`: iterate the store's entries; for an
entry whose name is found in the requested list (`next(i for i in
range(len(projects)) ...)`), deserialize it, insert it into the in-memory
map, refresh it against the remote, pop the requested-list index, and
advance the progress. -/
def cache_pass (remote : Remote) (clock : Nat → String) (increment : Nat) :
    List (String × SerProject) → SyncState → Except SyncError SyncState
  | [], st => Except.ok st
  | (project_name, ser) :: rest, st =>
    match firstIdx st.requested project_name with
    | none => cache_pass remote clock increment rest st
    | some idx =>
      match GitlabProject.from_dict ser with
      | none => Except.error SyncError.deserializeError
      | some project =>
        match update_project remote (clock st.ctr)
          (dictInsert st.projects project.path project) project.path with
        | none => Except.error SyncError.keyError
        | some updated =>
          cache_pass remote clock increment rest
            { projects := updated
              requested := st.requested.eraseIdx idx
              ctr := st.ctr + 1
              progressVal := st.progressVal + increment
              steps := st.steps ++ [st.progressVal + increment]
              events := st.events ++ [SyncEvent.deserializeEntry project_name,
                SyncEvent.insertProject project.path,
                SyncEvent.refreshProject project.path,
                SyncEvent.removeRequested project_name] }

/-- `fetch_projects`: scan the full remote catalog; every catalog project
whose path is still in the requested list is fetched in full (no time
filter) and stored; the requested list itself is not modified. -/
def fetch_projects (remote : Remote) (clock : Nat → String) (increment : Nat) :
    List CatalogEntry → SyncState → SyncState
  | [], st => st
  | fp :: rest, st =>
    if fp.path_with_namespace ∈ st.requested then
      let project : GitlabProject :=
        { id := fp.id
          path := fp.path_with_namespace
          last_update := clock st.ctr
          issues := get_issue_dict (remote.issuesAll fp.id)
          merge_requests := get_merge_request_dict (remote.mergeRequestsAll fp.id) }
      fetch_projects remote clock increment rest
        { st with
            projects := dictInsert st.projects project.path project
            ctr := st.ctr + 1
            progressVal := st.progressVal + increment
            steps := st.steps ++ [st.progressVal + increment]
            events := st.events ++ [SyncEvent.fetchProject project.path] }
    else fetch_projects remote clock increment rest st

/-- `load_projects`: the progress increment `int(100 / len(projects))` is
computed first (dividing by zero for an empty list, before the cache is
read or the remote contacted), then the cache pass runs over the loaded
store, then whatever is left of the requested list is fetched from the
catalog. -/
def load_projects (remote : Remote) (clock : Nat → String)
    (indexFile : Option (Except String (List (String × SerProject))))
    (projects : List String) : Except SyncError SyncState :=
  if projects.length = 0 then Except.error SyncError.zeroDivision
  else
    let increment := 100 / projects.length
    match load_state indexFile with
    | Except.error _ => Except.error SyncError.cacheParseError
    | Except.ok cache =>
      match cache_pass remote clock increment cache
        { projects := [], requested := projects, ctr := 0, progressVal := 0,
          steps := [], events := [] } with
      | Except.error e => Except.error e
      | Except.ok st =>
        Except.ok (if st.requested.length > 0
          then fetch_projects remote clock increment remote.projectsList st
          else st)

structure InitOptions where
  url : String
  private_token : String
  projects : List String
deriving DecidableEq, Repr

/-- The INITIALIZE handler `fetch_database`: missing `initialization_options`
aborts startup; otherwise the client is created and `load_projects` runs
on the configured project list. -/
def fetch_database (remote : Remote) (clock : Nat → String)
    (indexFile : Option (Except String (List (String × SerProject))))
    (init_options : Option InitOptions) : Except SyncError SyncState :=
  match init_options with
  | none => Except.error SyncError.configError
  | some opts => load_projects remote clock indexFile opts.projects

/-- Claim C10: an empty requested project list is not caught as a
configuration error; the pass dies on the progress-increment division
`int(100 / len(projects))` before the cache is read or any remote call is
made (the result does not depend on the index file or the remote). -/
theorem load_projects_empty_list_zero_division (remote : Remote) (clock : Nat → String)
    (indexFile : Option (Except String (List (String × SerProject))))
    (u tok : String) :
    load_projects remote clock indexFile [] = Except.error SyncError.zeroDivision ∧
    fetch_database remote clock indexFile
      (some { url := u, private_token := tok, projects := [] }) =
      Except.error SyncError.zeroDivision ∧
    SyncError.zeroDivision ≠ SyncError.configError := by
  refine ⟨rfl, rfl, ?_⟩
  intro h
  exact SyncError.noConfusion h

end GitlabLs

namespace GitlabLs

/-! ## Requested-list helpers

The source removes a matched project from the requested list by
`projects.pop(idx)` with `idx` the first index equal to the cache key.
That combination is `eraseFirst`. -/

def eraseFirst (l : List String) (k : String) : List String :=
  match l with
  | [] => []
  | a :: rest => if a = k then rest else a :: eraseFirst rest k

theorem firstIdx_eraseIdx_eq_eraseFirst (l : List String) (k : String) :
    ∀ idx, firstIdx l k = some idx → l.eraseIdx idx = eraseFirst l k := by
  induction l with
  | nil => intro idx h; exact Option.noConfusion h
  | cons a rest ih =>
    intro idx h
    unfold firstIdx at h
    by_cases ha : a = k
    · rw [if_pos ha] at h
      rw [← Option.some_inj.mp h]
      simp [List.eraseIdx, eraseFirst, ha]
    · rw [if_neg ha] at h
      cases hr : firstIdx rest k with
      | none => rw [hr] at h; exact Option.noConfusion h
      | some j =>
        rw [hr] at h
        simp only [Option.map_some', Option.some_inj] at h
        rw [← h]
        simp [List.eraseIdx, eraseFirst, ha, ih j hr]

theorem firstIdx_eq_none_iff_not_mem (l : List String) (k : String) :
    firstIdx l k = none ↔ ¬ k ∈ l := by
  induction l with
  | nil => simp [firstIdx]
  | cons a rest ih =>
    unfold firstIdx
    by_cases ha : a = k
    · simp [ha]
    · rw [if_neg ha]
      cases hr : firstIdx rest k with
      | none =>
        rw [hr] at ih
        simp only [Option.map_none', List.mem_cons, not_or, true_iff]
        exact ⟨fun hc => ha hc.symm, ih.mp rfl⟩
      | some j =>
        rw [hr] at ih
        simp only [Option.map_some', List.mem_cons, not_or]
        constructor
        · intro hc; exact Option.noConfusion hc
        · intro hc
          exact absurd (ih.mpr hc.2) (by simp)

theorem eraseFirst_sublist (l : List String) (k : String) :
    (eraseFirst l k).Sublist l := by
  induction l with
  | nil => simp [eraseFirst]
  | cons a rest ih =>
    unfold eraseFirst
    by_cases ha : a = k
    · rw [if_pos ha]
      exact List.sublist_cons_self a rest
    · rw [if_neg ha]
      exact List.Sublist.cons₂ a ih

theorem not_mem_eraseFirst_of_nodup (l : List String) (k : String)
    (hnd : l.Nodup) : ¬ k ∈ eraseFirst l k := by
  induction l with
  | nil => simp [eraseFirst]
  | cons a rest ih =>
    rcases List.nodup_cons.mp hnd with ⟨hna, hnrest⟩
    unfold eraseFirst
    by_cases ha : a = k
    · rw [if_pos ha]
      subst ha
      exact hna
    · rw [if_neg ha]
      intro hmem
      rcases List.mem_cons.mp hmem with rfl | hmem
      · exact ha rfl
      · exact ih hnrest hmem

theorem mem_eraseFirst_of_ne (l : List String) (k q : String) (hne : q ≠ k)
    (hq : q ∈ l) : q ∈ eraseFirst l k := by
  induction l with
  | nil => simp at hq
  | cons a rest ih =>
    unfold eraseFirst
    by_cases ha : a = k
    · rw [if_pos ha]
      rcases List.mem_cons.mp hq with rfl | hq
      · exact absurd ha hne
      · exact hq
    · rw [if_neg ha]
      rcases List.mem_cons.mp hq with rfl | hq
      · exact List.mem_cons_self _ _
      · exact List.mem_cons_of_mem a (ih hq)

end GitlabLs

namespace GitlabLs

/-- The four events one matched cache entry produces, in source order:
deserialize (line 105), insert (line 106), refresh (line 108), and only
then remove from the requested list (line 109). -/
def cacheBlock (name path : String) : List SyncEvent :=
  [SyncEvent.deserializeEntry name, SyncEvent.insertProject path,
   SyncEvent.refreshProject path, SyncEvent.removeRequested name]

theorem cache_pass_events (remote : Remote) (clock : Nat → String) (increment : Nat)
    (cache : List (String × SerProject)) : ∀ (st st' : SyncState),
    cache_pass remote clock increment cache st = Except.ok st' →
    ∃ blocks : List (String × String),
      st'.events = st.events ++ (blocks.map (fun nb => cacheBlock nb.1 nb.2)).flatten := by
  induction cache with
  | nil =>
    intro st st' h
    simp only [cache_pass, Except.ok.injEq] at h
    exact ⟨[], by simp [← h]⟩
  | cons entry rest ih =>
    intro st st' h
    obtain ⟨project_name, ser⟩ := entry
    unfold cache_pass at h
    split at h
    · exact ih st st' h
    · split at h
      · exact Except.noConfusion h
      · next project hdes =>
        split at h
        · exact Except.noConfusion h
        · next updated hupd =>
          obtain ⟨blocks, hb⟩ := ih _ st' h
          refine ⟨(project_name, project.path) :: blocks, ?_⟩
          simp only at hb
          rw [hb]
          simp [cacheBlock]

theorem fetch_projects_events (remote : Remote) (clock : Nat → String) (increment : Nat)
    (catalog : List CatalogEntry) : ∀ (st : SyncState),
    ∃ fetched : List String,
      (fetch_projects remote clock increment catalog st).events =
        st.events ++ fetched.map SyncEvent.fetchProject := by
  induction catalog with
  | nil => intro st; exact ⟨[], by simp [fetch_projects]⟩
  | cons fp rest ih =>
    intro st
    unfold fetch_projects
    by_cases hmem : fp.path_with_namespace ∈ st.requested
    · rw [if_pos hmem]
      obtain ⟨fetched, hf⟩ := ih _
      refine ⟨fp.path_with_namespace :: fetched, ?_⟩
      rw [hf]
      simp
    · rw [if_neg hmem]
      exact ih st

/-- Claim C9, amended: for each matched cache entry the engine performs, in
this order, deserialize, insert into the in-memory set, refresh against
the remote, and only then remove the path from the requested list; the
event trace of a successful pass is a concatenation of such four-event
blocks followed by fetch events. -/
theorem load_projects_step_order (remote : Remote) (clock : Nat → String)
    (indexFile : Option (Except String (List (String × SerProject))))
    (requested : List String) (st : SyncState)
    (h : load_projects remote clock indexFile requested = Except.ok st) :
    ∃ (blocks : List (String × String)) (fetched : List String),
      st.events = (blocks.map (fun nb => cacheBlock nb.1 nb.2)).flatten ++
        fetched.map SyncEvent.fetchProject := by
  unfold load_projects at h
  split at h
  · exact Except.noConfusion h
  · split at h
    · exact Except.noConfusion h
    · next cache hcache =>
      dsimp only at h
      split at h
      · exact Except.noConfusion h
      · next st₀ hcp =>
        obtain ⟨blocks, hb⟩ := cache_pass_events remote clock _ cache _ st₀ hcp
        simp only [List.nil_append] at hb
        simp only [Except.ok.injEq] at h
        by_cases hrem : st₀.requested.length > 0
        · rw [if_pos hrem] at h
          obtain ⟨fetched, hf⟩ :=
            fetch_projects_events remote clock (100 / requested.length)
              remote.projectsList st₀
          refine ⟨blocks, fetched, ?_⟩
          rw [← h, hf, hb]
        · rw [if_neg hrem] at h
          refine ⟨blocks, [], ?_⟩
          rw [← h, hb]
          simp

end GitlabLs

namespace GitlabLs

def exCacheAB : List (String × SerProject) := [("a/b", exProjAB.to_dict)]

def constClock : Nat → String := fun _ => "2024-02-02T00:00:00"

def exRunEvents : List SyncEvent :=
  match load_projects exRemoteRefresh constClock (some (Except.ok exCacheAB)) ["a/b"] with
  | Except.ok st => st.events
  | Except.error _ => []

/-- Claim C9 as stated is false: in the cache pass the source refreshes the
project (line 108) before popping it from the requested list (line 109),
so the removal comes after the refresh, not before. -/
theorem cache_pass_remove_before_refresh_counterexample :
    exRunEvents = cacheBlock "a/b" "a/b" ∧
    exRunEvents.indexOf (SyncEvent.refreshProject "a/b") <
      exRunEvents.indexOf (SyncEvent.removeRequested "a/b") := by decide

theorem load_projects_step_order_witness :
    ∃ st, load_projects exRemoteRefresh constClock (some (Except.ok exCacheAB)) ["a/b"] =
        Except.ok st ∧
      ∃ (blocks : List (String × String)) (fetched : List String),
        st.events = (blocks.map (fun nb => cacheBlock nb.1 nb.2)).flatten ++
          fetched.map SyncEvent.fetchProject :=
  ⟨_, rfl, load_projects_step_order exRemoteRefresh constClock
    (some (Except.ok exCacheAB)) ["a/b"] _ rfl⟩

theorem cache_pass_requested (remote : Remote) (clock : Nat → String) (increment : Nat)
    (cache : List (String × SerProject)) : ∀ (st st' : SyncState),
    cache_pass remote clock increment cache st = Except.ok st' →
    st'.requested.Sublist st.requested ∧
    (st.requested.Nodup → ∀ q ∈ dictKeys cache, ¬ q ∈ st'.requested) := by
  induction cache with
  | nil =>
    intro st st' h
    simp only [cache_pass, Except.ok.injEq] at h
    subst h
    exact ⟨List.Sublist.refl _, fun _ q hq => by simp [dictKeys] at hq⟩
  | cons entry rest ih =>
    intro st st' h
    obtain ⟨project_name, ser⟩ := entry
    unfold cache_pass at h
    split at h
    · next hidx =>
      obtain ⟨hsub, hnm⟩ := ih st st' h
      refine ⟨hsub, fun hnd q hq => ?_⟩
      rcases (by simpa [dictKeys] using hq : q = project_name ∨ q ∈ dictKeys rest) with rfl | hq
      · intro hmem
        exact (firstIdx_eq_none_iff_not_mem _ _).mp hidx (hsub.subset hmem)
      · exact hnm hnd q hq
    · next idx hidx =>
      split at h
      · exact Except.noConfusion h
      · next project hdes =>
        split at h
        · exact Except.noConfusion h
        · next updated hupd =>
          obtain ⟨hsub, hnm⟩ := ih _ st' h
          simp only at hsub hnm
          rw [firstIdx_eraseIdx_eq_eraseFirst st.requested project_name idx hidx]
            at hsub hnm
          refine ⟨hsub.trans (eraseFirst_sublist _ _), fun hnd q hq => ?_⟩
          rcases (by simpa [dictKeys] using hq : q = project_name ∨ q ∈ dictKeys rest)
            with rfl | hq
          · intro hmem
            exact not_mem_eraseFirst_of_nodup st.requested q hnd (hsub.subset hmem)
          · exact hnm (((eraseFirst_sublist _ _)).nodup hnd) q hq

theorem fetch_projects_event_mem (remote : Remote) (clock : Nat → String) (increment : Nat)
    (catalog : List CatalogEntry) : ∀ (st : SyncState) (q : String),
    SyncEvent.fetchProject q ∈ (fetch_projects remote clock increment catalog st).events →
    SyncEvent.fetchProject q ∈ st.events ∨ q ∈ st.requested := by
  induction catalog with
  | nil => intro st q h; exact Or.inl (by simpa [fetch_projects] using h)
  | cons fp rest ih =>
    intro st q h
    unfold fetch_projects at h
    by_cases hmem : fp.path_with_namespace ∈ st.requested
    · rw [if_pos hmem] at h
      rcases ih _ q h with hin | hreq
      · simp only [List.mem_append, List.mem_singleton] at hin
        rcases hin with hin | hin
        · exact Or.inl hin
        · rcases SyncEvent.fetchProject.injEq .. ▸ hin with rfl
          right
          simpa using hmem
      · exact Or.inr hreq
    · rw [if_neg hmem] at h
      exact ih st q h

theorem fetchProject_not_mem_cacheBlocks (q : String) (blocks : List (String × String)) :
    ¬ SyncEvent.fetchProject q ∈ (blocks.map (fun nb => cacheBlock nb.1 nb.2)).flatten := by
  induction blocks with
  | nil => simp
  | cons b rest ih =>
    simp only [List.map_cons, List.flatten_cons, List.mem_append, not_or]
    exact ⟨by simp [cacheBlock], ih⟩

/-- Claim C5, amended: provided the requested list has no duplicate
entries, a project path present in the persisted cache is never fetched
through the full-catalog scan — the cache pass removes it from the
requested list and the fetch pass only fetches paths still in that list. -/
theorem cached_path_not_refetched (remote : Remote) (clock : Nat → String)
    (indexFile : Option (Except String (List (String × SerProject))))
    (requested : List String) (st : SyncState)
    (cache : List (String × SerProject))
    (hnodup : requested.Nodup)
    (hcache : load_state indexFile = Except.ok cache)
    (h : load_projects remote clock indexFile requested = Except.ok st) :
    ∀ q ∈ dictKeys cache, ¬ SyncEvent.fetchProject q ∈ st.events := by
  intro q hq
  unfold load_projects at h
  split at h
  · exact Except.noConfusion h
  · split at h
    · next hbad =>
      rw [hcache] at hbad
      exact Except.noConfusion hbad
    · next cache₀ hcache₀ =>
      rw [hcache] at hcache₀
      obtain rfl : cache = cache₀ := Except.ok.inj hcache₀
      dsimp only at h
      split at h
      · exact Except.noConfusion h
      · next st₀ hcp =>
        have hreq := cache_pass_requested remote clock _ cache _ st₀ hcp
        have hq₀ : ¬ q ∈ st₀.requested := hreq.2 hnodup q hq
        obtain ⟨blocks, hb⟩ := cache_pass_events remote clock _ cache _ st₀ hcp
        simp only [List.nil_append] at hb
        simp only [Except.ok.injEq] at h
        by_cases hrem : st₀.requested.length > 0
        · rw [if_pos hrem] at h
          rw [← h]
          intro hmem
          rcases fetch_projects_event_mem remote clock (100 / requested.length)
            remote.projectsList st₀ q hmem with hin | hreq'
          · rw [hb] at hin
            exact fetchProject_not_mem_cacheBlocks q blocks hin
          · exact hq₀ hreq'
        · rw [if_neg hrem] at h
          rw [← h, hb]
          exact fetchProject_not_mem_cacheBlocks q blocks

end GitlabLs

namespace GitlabLs

def exProjA : GitlabProject :=
  { id := 2, path := "a", last_update := "T0", issues := [], merge_requests := [] }

def exRemoteDup : Remote :=
  { issuesUpdatedAfter := fun _ _ => []
    issuesAll := fun _ => []
    mergeRequestsUpdatedAfter := fun _ _ => []
    mergeRequestsAll := fun _ => []
    projectsList := [{ id := 2, path_with_namespace := "a" }] }

def exCacheA : List (String × SerProject) := [("a", exProjA.to_dict)]

def exRunDupEvents : List SyncEvent :=
  match load_projects exRemoteDup constClock (some (Except.ok exCacheA)) ["a", "a"] with
  | Except.ok st => st.events
  | Except.error _ => []

/-- Claim C5 as stated is false: with the path `a` requested twice, the
cache pass pops only one occurrence of it, so the catalog scan fetches `a`
afresh even though it was found in (and refreshed from) the cache. -/
theorem cached_path_refetched_counterexample :
    "a" ∈ dictKeys exCacheA ∧
    SyncEvent.refreshProject "a" ∈ exRunDupEvents ∧
    SyncEvent.fetchProject "a" ∈ exRunDupEvents := by decide

def exRemoteRefreshCat : Remote :=
  { exRemoteRefresh with projectsList := [{ id := 1, path_with_namespace := "a/b" }] }

theorem cached_path_not_refetched_witness :
    List.Nodup ["a/b"] ∧
    load_state (some (Except.ok exCacheAB)) = Except.ok exCacheAB ∧
    ∃ st, load_projects exRemoteRefreshCat constClock (some (Except.ok exCacheAB)) ["a/b"] =
        Except.ok st ∧
      ∀ q ∈ dictKeys exCacheAB, ¬ SyncEvent.fetchProject q ∈ st.events :=
  ⟨by decide, rfl, _, rfl,
    cached_path_not_refetched exRemoteRefreshCat constClock (some (Except.ok exCacheAB))
      ["a/b"] _ exCacheAB (by decide) rfl rfl⟩

end GitlabLs

namespace GitlabLs

@[simp] theorem dictKeys_cons {α β : Type} (k : α) (v : β) (d : List (α × β)) :
    dictKeys ((k, v) :: d) = k :: dictKeys d := rfl

theorem eraseFirst_eq_filter (l : List String) (k : String) (hnd : l.Nodup) :
    eraseFirst l k = l.filter (fun q => decide (¬ q = k)) := by
  induction l with
  | nil => rfl
  | cons a rest ih =>
    rcases List.nodup_cons.mp hnd with ⟨hna, hnrest⟩
    unfold eraseFirst
    by_cases ha : a = k
    · rw [if_pos ha]
      subst ha
      rw [List.filter_cons_of_neg (by simp)]
      symm
      apply List.filter_eq_self.mpr
      intro x hx
      simp only [decide_eq_true_eq]
      intro hxa
      exact hna (hxa ▸ hx)
    · rw [if_neg ha, List.filter_cons_of_pos (by simpa using ha), ih hnrest]

theorem eraseFirst_length (l : List String) (k : String) (h : k ∈ l) :
    (eraseFirst l k).length = l.length - 1 := by
  induction l with
  | nil => simp at h
  | cons a rest ih =>
    unfold eraseFirst
    by_cases ha : a = k
    · rw [if_pos ha]; simp
    · rw [if_neg ha]
      have hk : k ∈ rest := by
        rcases List.mem_cons.mp h with rfl | hm
        · exact absurd rfl ha
        · exact hm
      have hlen : 1 ≤ rest.length := List.length_pos.mpr (List.ne_nil_of_mem hk)
      simp only [List.length_cons, ih hk]
      omega

/-- Progress bookkeeping of the cache pass: with a duplicate-free requested
list, the surviving requested list is the original minus the cache's keys,
and one step of `increment` is reported per removed entry. -/
theorem cache_pass_trace (remote : Remote) (clock : Nat → String) (increment : Nat)
    (cache : List (String × SerProject)) : ∀ (st st' : SyncState),
    st.requested.Nodup →
    cache_pass remote clock increment cache st = Except.ok st' →
    st'.requested = st.requested.filter (fun q => decide (¬ q ∈ dictKeys cache)) ∧
    st'.progressVal = st.progressVal +
      increment * (st.requested.length - st'.requested.length) ∧
    st'.steps = st.steps ++
      (List.range (st.requested.length - st'.requested.length)).map
        (fun i => st.progressVal + increment * (i + 1)) := by
  induction cache with
  | nil =>
    intro st st' hnd h
    simp only [cache_pass, Except.ok.injEq] at h
    subst h
    refine ⟨?_, by simp, by simp⟩
    symm
    apply List.filter_eq_self.mpr
    intro x hx
    simp [dictKeys]
  | cons entry rest ih =>
    intro st st' hnd h
    obtain ⟨project_name, ser⟩ := entry
    unfold cache_pass at h
    split at h
    · next hidx =>
      have hknot : ¬ project_name ∈ st.requested :=
        (firstIdx_eq_none_iff_not_mem _ _).mp hidx
      obtain ⟨hreq, hprog, hsteps⟩ := ih st st' hnd h
      have hfc : st.requested.filter (fun q => decide (¬ q ∈ dictKeys rest)) =
          st.requested.filter (fun q => decide (¬ q ∈ dictKeys ((project_name, ser) :: rest))) := by
        apply List.filter_congr
        intro x hx
        have : ¬ x = project_name := fun hxk => hknot (hxk ▸ hx)
        simp [dictKeys, this]
      exact ⟨by rw [hreq, hfc], by rw [hprog], by rw [hsteps]⟩
    · next idx hidx =>
      split at h
      · exact Except.noConfusion h
      · next project hdes =>
        split at h
        · exact Except.noConfusion h
        · next updated hupd =>
          have hkmem : project_name ∈ st.requested := by
            by_contra hk
            rw [(firstIdx_eq_none_iff_not_mem _ _).mpr hk] at hidx
            exact Option.noConfusion hidx
          have herase := firstIdx_eraseIdx_eq_eraseFirst st.requested project_name idx hidx
          have hnd₁ : (st.requested.eraseIdx idx).Nodup := by
            rw [herase]
            exact (eraseFirst_sublist _ _).nodup hnd
          obtain ⟨hreq, hprog, hsteps⟩ := ih _ st' hnd₁ h
          simp only at hreq hprog hsteps
          rw [herase] at hreq hprog hsteps
          have hsub' : st'.requested.Sublist (eraseFirst st.requested project_name) := by
            rw [hreq]
            exact List.filter_sublist _
          have hlen₁ : (eraseFirst st.requested project_name).length =
              st.requested.length - 1 := eraseFirst_length _ _ hkmem
          have hlenle : st'.requested.length ≤ st.requested.length - 1 :=
            hlen₁ ▸ hsub'.length_le
          have hpos : 1 ≤ st.requested.length :=
            List.length_pos.mpr (List.ne_nil_of_mem hkmem)
          refine ⟨?_, ?_, ?_⟩
          · rw [hreq, eraseFirst_eq_filter _ _ hnd, List.filter_filter]
            apply List.filter_congr
            intro x hx
            by_cases hxk : x = project_name <;> simp [dictKeys, hxk]
          · rw [hprog, hlen₁]
            have : st.requested.length - st'.requested.length =
                (st.requested.length - 1 - st'.requested.length) + 1 := by omega
            rw [this]
            ring
          · rw [hsteps, hlen₁]
            have : st.requested.length - st'.requested.length =
                (st.requested.length - 1 - st'.requested.length) + 1 := by omega
            rw [this, List.range_succ_eq_map]
            simp only [List.map_cons, List.map_map, List.append_assoc, List.cons_append,
              List.nil_append, Nat.zero_add, Nat.mul_one]
            congr 2
            apply List.map_congr_left
            intro i hi
            simp only [Function.comp_apply, Nat.succ_eq_add_one]
            ring

end GitlabLs

namespace GitlabLs

/-- Progress bookkeeping of the fetch pass: the requested list is not
modified, and one step of `increment` is reported per catalog entry whose
path is in the requested list. -/
theorem fetch_projects_trace (remote : Remote) (clock : Nat → String) (increment : Nat)
    (catalog : List CatalogEntry) : ∀ (st : SyncState),
    (fetch_projects remote clock increment catalog st).requested = st.requested ∧
    (fetch_projects remote clock increment catalog st).steps = st.steps ++
      (List.range (catalog.countP
        (fun fp => decide (fp.path_with_namespace ∈ st.requested)))).map
        (fun i => st.progressVal + increment * (i + 1)) := by
  induction catalog with
  | nil => intro st; exact ⟨rfl, by simp [fetch_projects]⟩
  | cons fp rest ih =>
    intro st
    unfold fetch_projects
    by_cases hmem : fp.path_with_namespace ∈ st.requested
    · rw [if_pos hmem]
      constructor
      · rw [(ih _).1]
      · rw [(ih _).2]
        dsimp only
        rw [List.countP_cons, if_pos (by simpa using hmem)]
        rw [List.range_succ_eq_map]
        simp only [List.map_cons, List.map_map, List.append_assoc, List.cons_append,
          List.nil_append, Nat.zero_add, Nat.mul_one]
        congr 2
        apply List.map_congr_left
        intro i hi
        simp only [Function.comp_apply, Nat.succ_eq_add_one]
        ring
    · rw [if_neg hmem]
      obtain ⟨hreq, hsteps⟩ := ih st
      refine ⟨hreq, ?_⟩
      rw [hsteps, List.countP_cons, if_neg (by simpa using hmem), Nat.add_zero]

theorem countP_mem_cons_split (catalog : List CatalogEntry) (q : String)
    (rem : List String) (hq : ¬ q ∈ rem) :
    catalog.countP (fun fp => decide (fp.path_with_namespace ∈ q :: rem)) =
      catalog.countP (fun fp => decide (fp.path_with_namespace = q)) +
      catalog.countP (fun fp => decide (fp.path_with_namespace ∈ rem)) := by
  induction catalog with
  | nil => simp
  | cons fp rest ih =>
    simp only [List.countP_cons, ih]
    by_cases h1 : fp.path_with_namespace = q
    · have h2 : ¬ fp.path_with_namespace ∈ rem := fun hc => hq (h1 ▸ hc)
      have h3 : fp.path_with_namespace ∈ q :: rem := by simp [h1]
      simp only [h1, h2, h3, decide_eq_true_eq, decide_True, if_pos, if_true]
      simp [h2, hq]
      omega
    · by_cases h2 : fp.path_with_namespace ∈ rem
      · have h3 : fp.path_with_namespace ∈ q :: rem := List.mem_cons_of_mem _ h2
        simp [h1, h2, h3, hq]
        omega
      · have h3 : ¬ fp.path_with_namespace ∈ q :: rem := by simp [h1, h2]
        simp [h1, h2, h3]

theorem countP_catalog_mem_eq_length (catalog : List CatalogEntry) :
    ∀ (rem : List String), rem.Nodup →
    (∀ q ∈ rem, catalog.countP (fun fp => decide (fp.path_with_namespace = q)) = 1) →
    catalog.countP (fun fp => decide (fp.path_with_namespace ∈ rem)) = rem.length := by
  intro rem
  induction rem with
  | nil =>
    intro _ _
    simp
  | cons q rest ih =>
    intro hnd hcov
    rcases List.nodup_cons.mp hnd with ⟨hq, hnrest⟩
    rw [countP_mem_cons_split catalog q rest hq]
    rw [hcov q (List.mem_cons_self _ _),
      ih hnrest (fun x hx => hcov x (List.mem_cons_of_mem q hx))]
    simp [Nat.add_comm]

end GitlabLs

namespace GitlabLs

theorem range_split_map (inc m b N : Nat) (hN : N = m + b) :
    (List.range N).map (fun i => inc * (i + 1)) =
      (List.range m).map (fun i => inc * (i + 1)) ++
      (List.range b).map (fun i => inc * m + inc * (i + 1)) := by
  subst hN
  rw [List.range_add, List.map_append, List.map_map]
  congr 1
  apply List.map_congr_left
  intro i hi
  simp only [Function.comp_apply]
  ring

/-- Claim C6: for a synchronization pass over N requested projects (each of
which is either cached or appears exactly once in the remote catalog, with
no duplicate requests), the percentage reported after the k-th completed
project step is `floor(100/N) * k` for k = 1..N; in particular the final
value is `N * floor(100/N)`, which may fall short of 100. -/
theorem progress_steps_spec (remote : Remote) (clock : Nat → String)
    (indexFile : Option (Except String (List (String × SerProject))))
    (cache : List (String × SerProject)) (requested : List String) (st : SyncState)
    (hnodup : requested.Nodup)
    (hcache : load_state indexFile = Except.ok cache)
    (hcover : ∀ q ∈ requested, q ∈ dictKeys cache ∨
      remote.projectsList.countP (fun fp => decide (fp.path_with_namespace = q)) = 1)
    (h : load_projects remote clock indexFile requested = Except.ok st) :
    requested.length > 0 ∧
    st.steps = (List.range requested.length).map
      (fun i => (100 / requested.length) * (i + 1)) := by
  unfold load_projects at h
  split at h
  · exact Except.noConfusion h
  · next hlen =>
    refine ⟨Nat.pos_of_ne_zero hlen, ?_⟩
    split at h
    · next hbad =>
      rw [hcache] at hbad
      exact Except.noConfusion hbad
    · next cache₀ hcache₀ =>
      rw [hcache] at hcache₀
      obtain rfl : cache = cache₀ := Except.ok.inj hcache₀
      dsimp only at h
      split at h
      · exact Except.noConfusion h
      · next st₀ hcp =>
        obtain ⟨hreq₀, hprog₀, hsteps₀⟩ := cache_pass_trace remote clock
          (100 / requested.length) cache _ st₀ hnodup hcp
        simp only [List.nil_append, Nat.zero_add] at hreq₀ hprog₀ hsteps₀
        have hrem_le : st₀.requested.length ≤ requested.length := by
          rw [hreq₀]
          exact List.length_filter_le _ _
        simp only [Except.ok.injEq] at h
        by_cases hpos : st₀.requested.length > 0
        · rw [if_pos hpos] at h
          have hrem_nodup : st₀.requested.Nodup := by
            rw [hreq₀]
            exact hnodup.filter _
          have hcov' : ∀ q ∈ st₀.requested,
              remote.projectsList.countP
                (fun fp => decide (fp.path_with_namespace = q)) = 1 := by
            intro q hqrem
            rw [hreq₀] at hqrem
            have hmem := List.mem_filter.mp hqrem
            rcases hcover q hmem.1 with hk | hc
            · exact absurd hk (by simpa using hmem.2)
            · exact hc
          have hfm := countP_catalog_mem_eq_length remote.projectsList st₀.requested
            hrem_nodup hcov'
          obtain ⟨-, hfsteps⟩ := fetch_projects_trace remote clock
            (100 / requested.length) remote.projectsList st₀
          rw [← h, hfsteps, hfm, hsteps₀, hprog₀]
          rw [range_split_map (100 / requested.length)
            (requested.length - st₀.requested.length) st₀.requested.length
            requested.length (by omega)]
        · rw [if_neg hpos] at h
          have hrem0 : st₀.requested.length = 0 := by omega
          rw [← h, hsteps₀, hrem0, Nat.sub_zero]

end GitlabLs

namespace GitlabLs

def exRemoteTwo : Remote :=
  { issuesUpdatedAfter := fun _ _ => []
    issuesAll := fun _ => []
    mergeRequestsUpdatedAfter := fun _ _ => []
    mergeRequestsAll := fun _ => []
    projectsList := [{ id := 3, path_with_namespace := "c/d" }] }

theorem progress_steps_spec_witness :
    List.Nodup ["a/b", "c/d"] ∧
    load_state (some (Except.ok exCacheAB)) = Except.ok exCacheAB ∧
    (∀ q ∈ (["a/b", "c/d"] : List String), q ∈ dictKeys exCacheAB ∨
      exRemoteTwo.projectsList.countP
        (fun fp => decide (fp.path_with_namespace = q)) = 1) ∧
    ∃ st, load_projects exRemoteTwo constClock (some (Except.ok exCacheAB))
        ["a/b", "c/d"] = Except.ok st ∧
      ((["a/b", "c/d"] : List String).length > 0 ∧
        st.steps = (List.range (["a/b", "c/d"] : List String).length).map
          (fun i => (100 / (["a/b", "c/d"] : List String).length) * (i + 1))) :=
  ⟨by decide, rfl, by decide, _, rfl,
    progress_steps_spec exRemoteTwo constClock (some (Except.ok exCacheAB))
      exCacheAB ["a/b", "c/d"] _ (by decide) rfl (by decide) rfl⟩

end GitlabLs

namespace GitlabLs

theorem mem_dictInsert_elim {α β : Type} [DecidableEq α]
    (d : List (α × β)) (k : α) (v : β) :
    ∀ kv ∈ dictInsert d k v, kv = (k, v) ∨ kv ∈ d := by
  induction d with
  | nil => intro kv hkv; simpa [dictInsert] using hkv
  | cons kv₀ rest ih =>
    obtain ⟨k₀, v₀⟩ := kv₀
    intro kv hkv
    by_cases hk : k₀ = k
    · rw [dictInsert, if_pos hk] at hkv
      rcases List.mem_cons.mp hkv with rfl | hkv
      · exact Or.inl rfl
      · exact Or.inr (List.mem_cons_of_mem _ hkv)
    · rw [dictInsert, if_neg hk] at hkv
      rcases List.mem_cons.mp hkv with rfl | hkv
      · exact Or.inr (List.mem_cons_self _ _)
      · rcases ih kv hkv with h | h
        · exact Or.inl h
        · exact Or.inr (List.mem_cons_of_mem _ h)

theorem dictInsert_dictInsert_same {α β : Type} [DecidableEq α]
    (d : List (α × β)) (k : α) (v v' : β) :
    dictInsert (dictInsert d k v) k v' = dictInsert d k v' := by
  induction d with
  | nil => simp [dictInsert]
  | cons kv₀ rest ih =>
    obtain ⟨k₀, v₀⟩ := kv₀
    by_cases hk : k₀ = k
    · simp [dictInsert, hk]
    · simp [dictInsert, hk, ih]

theorem dictLookup_of_mem_of_nodup {α β : Type} [DecidableEq α]
    (d : List (α × β)) (k : α) (v : β)
    (hnd : (dictKeys d).Nodup) (hmem : (k, v) ∈ d) :
    dictLookup d k = some v := by
  induction d with
  | nil => simp at hmem
  | cons kv₀ rest ih =>
    obtain ⟨k₀, v₀⟩ := kv₀
    rw [dictKeys_cons] at hnd
    rcases List.nodup_cons.mp hnd with ⟨hk₀, hnrest⟩
    rcases List.mem_cons.mp hmem with heq | hmem
    · obtain ⟨rfl, rfl⟩ := Prod.mk.injEq .. ▸ heq
      simp [dictLookup]
    · have hne : ¬ k₀ = k := by
        intro hk
        subst hk
        exact hk₀ (List.mem_map_of_mem Prod.fst hmem)
      simp only [dictLookup_cons, if_neg hne]
      exact ih hnrest hmem

/-- Well-formedness of the in-memory project map maintained by the engine:
every entry is keyed by its record's path, every record is stamped with a
clock value, and the keys are duplicate-free. -/
def MemOK (clock : Nat → String) (M : List (String × GitlabProject)) : Prop :=
  (∀ kv ∈ M, kv.2.path = kv.1 ∧ ∃ c, kv.2.last_update = clock c) ∧
  (dictKeys M).Nodup

theorem memOK_insert (clock : Nat → String) (M : List (String × GitlabProject))
    (p : GitlabProject) (hM : MemOK clock M) (hp : ∃ c, p.last_update = clock c) :
    MemOK clock (dictInsert M p.path p) := by
  obtain ⟨hent, hnd⟩ := hM
  constructor
  · intro kv hkv
    rcases mem_dictInsert_elim M p.path p kv hkv with rfl | hkv
    · exact ⟨rfl, hp⟩
    · exact hent kv hkv
  · exact dictKeys_nodup_insert _ _ _ hnd

end GitlabLs

namespace GitlabLs

theorem update_project_shape (remote : Remote) (now : String)
    (M : List (String × GitlabProject)) (name : String) (p : GitlabProject)
    (h : dictLookup M name = some p) :
    ∃ p', update_project remote now M name = some (dictInsert M name p') ∧
      p'.path = p.path ∧ p'.id = p.id ∧ p'.last_update = now ∧
      p'.issues = dictMerge p.issues
        (get_issue_dict (remote.issuesUpdatedAfter p.id p.last_update)) ∧
      p'.merge_requests = dictMerge p.merge_requests
        (get_merge_request_dict (remote.mergeRequestsUpdatedAfter p.id p.last_update)) := by
  refine ⟨{ p with
      issues := dictMerge p.issues
        (get_issue_dict (remote.issuesUpdatedAfter p.id p.last_update)),
      merge_requests := dictMerge p.merge_requests
        (get_merge_request_dict (remote.mergeRequestsUpdatedAfter p.id p.last_update)),
      last_update := now }, ?_, rfl, rfl, rfl, rfl, rfl⟩
  unfold update_project
  rw [h]

theorem cache_pass_memory (remote : Remote) (clock : Nat → String) (increment : Nat)
    (cache : List (String × SerProject)) : ∀ (st st' : SyncState),
    cache_pass remote clock increment cache st = Except.ok st' →
    (MemOK clock st.projects → MemOK clock st'.projects) ∧
    (∀ q ∈ dictKeys st.projects, q ∈ dictKeys st'.projects) ∧
    ((∀ kv ∈ cache, ∀ p, GitlabProject.from_dict kv.2 = some p → p.path = kv.1) →
      ∀ q, q ∈ st.requested → ¬ q ∈ st'.requested → q ∈ dictKeys st'.projects) := by
  induction cache with
  | nil =>
    intro st st' h
    simp only [cache_pass, Except.ok.injEq] at h
    subst h
    exact ⟨id, fun q hq => hq, fun _ q hq hnq => absurd hq hnq⟩
  | cons entry rest ih =>
    intro st st' h
    obtain ⟨project_name, ser⟩ := entry
    unfold cache_pass at h
    split at h
    · next hidx =>
      obtain ⟨hmem, hmono, hcov⟩ := ih st st' h
      exact ⟨hmem, hmono,
        fun hwf q hq hnq => hcov (fun kv hkv => hwf kv (List.mem_cons_of_mem _ hkv)) q hq hnq⟩
    · next idx hidx =>
      split at h
      · exact Except.noConfusion h
      · next project hdes =>
        split at h
        · exact Except.noConfusion h
        · next updated hupd =>
          obtain ⟨p', hupd', hpath, hid, hstamp, hiss, hmrs⟩ :=
            update_project_shape remote (clock st.ctr)
              (dictInsert st.projects project.path project) project.path project
              (dictLookup_insert_self _ _ _)
          rw [hupd'] at hupd
          obtain rfl : dictInsert (dictInsert st.projects project.path project)
              project.path p' = updated := Option.some_inj.mp hupd
          rw [dictInsert_dictInsert_same] at h
          obtain ⟨hmem, hmono, hcov⟩ := ih _ st' h
          simp only at hmem hmono hcov
          have herase := firstIdx_eraseIdx_eq_eraseFirst st.requested project_name idx hidx
          rw [herase] at hcov
          refine ⟨?_, ?_, ?_⟩
          · intro hok
            apply hmem
            have : dictInsert st.projects project.path p' =
                dictInsert st.projects p'.path p' := by rw [hpath]
            rw [this]
            exact memOK_insert clock st.projects p' hok ⟨st.ctr, hstamp⟩
          · intro q hq
            exact hmono q ((mem_dictKeys_insert _ _ _ _).mpr (Or.inr hq))
          · intro hwf q hq hnq
            by_cases hqk : q ∈ eraseFirst st.requested project_name
            · exact hcov (fun kv hkv => hwf kv (List.mem_cons_of_mem _ hkv)) q hqk hnq
            · have hqeq : q = project_name := by
                by_contra hne
                exact hqk (mem_eraseFirst_of_ne _ _ _ hne hq)
              have hppath : project.path = project_name :=
                hwf (project_name, ser) (List.mem_cons_self _ _) project hdes
              apply hmono
              rw [hqeq, ← hppath]
              exact (mem_dictKeys_insert _ _ _ _).mpr (Or.inl rfl)

end GitlabLs

namespace GitlabLs

theorem fetch_projects_memory (remote : Remote) (clock : Nat → String) (increment : Nat)
    (catalog : List CatalogEntry) : ∀ (st : SyncState),
    (MemOK clock st.projects →
      MemOK clock (fetch_projects remote clock increment catalog st).projects) ∧
    (∀ q ∈ dictKeys st.projects,
      q ∈ dictKeys (fetch_projects remote clock increment catalog st).projects) ∧
    (∀ q ∈ st.requested, (∃ e ∈ catalog, e.path_with_namespace = q) →
      q ∈ dictKeys (fetch_projects remote clock increment catalog st).projects) := by
  induction catalog with
  | nil =>
    intro st
    refine ⟨id, fun q hq => hq, fun q hq hex => ?_⟩
    obtain ⟨e, he, _⟩ := hex
    simp at he
  | cons fp rest ih =>
    intro st
    unfold fetch_projects
    by_cases hmem : fp.path_with_namespace ∈ st.requested
    · rw [if_pos hmem]
      obtain ⟨hok, hmono, hcov⟩ := ih _
      refine ⟨?_, ?_, ?_⟩
      · intro h
        apply hok
        exact memOK_insert clock st.projects
          { id := fp.id, path := fp.path_with_namespace, last_update := clock st.ctr,
            issues := get_issue_dict (remote.issuesAll fp.id),
            merge_requests := get_merge_request_dict (remote.mergeRequestsAll fp.id) }
          h ⟨st.ctr, rfl⟩
      · intro q hq
        exact hmono q ((mem_dictKeys_insert _ _ _ _).mpr (Or.inr hq))
      · intro q hq hex
        by_cases hqf : q = fp.path_with_namespace
        · apply hmono
          rw [hqf]
          exact (mem_dictKeys_insert _ _ _ _).mpr (Or.inl rfl)
        · obtain ⟨e, he, hep⟩ := hex
          rcases List.mem_cons.mp he with rfl | he
          · exact absurd hep.symm hqf
          · exact hcov q hq ⟨e, he, hep⟩
    · rw [if_neg hmem]
      obtain ⟨hok, hmono, hcov⟩ := ih st
      refine ⟨hok, hmono, fun q hq hex => ?_⟩
      obtain ⟨e, he, hep⟩ := hex
      rcases List.mem_cons.mp he with rfl | he
      · exact absurd (hep ▸ hq) hmem
      · exact hcov q hq ⟨e, he, hep⟩

theorem fetch_projects_noop (remote : Remote) (clock : Nat → String) (increment : Nat)
    (catalog : List CatalogEntry) : ∀ (st : SyncState),
    (∀ e ∈ catalog, ¬ e.path_with_namespace ∈ st.requested) →
    (fetch_projects remote clock increment catalog st).projects = st.projects := by
  induction catalog with
  | nil => intro st _; rfl
  | cons fp rest ih =>
    intro st hnone
    unfold fetch_projects
    rw [if_neg (hnone fp (List.mem_cons_self _ _))]
    exact ih st (fun e he => hnone e (List.mem_cons_of_mem _ he))

end GitlabLs

namespace GitlabLs

theorem dictKeys_save_state (M : List (String × GitlabProject)) :
    dictKeys (save_state M) = dictKeys M := by
  induction M with
  | nil => rfl
  | cons kv rest ih =>
    simp only [save_state, dictKeys, List.map_cons, List.map_map] at ih ⊢
    rw [ih]

/-- Through a cache pass whose entries all come from serializing a base
project map (with clock-stamped records) against a remote that reports no
changes after any clock instant, every project record in memory keeps the
records it has in the base map. -/
theorem cache_pass_records (remote : Remote) (clock : Nat → String) (increment : Nat)
    (base : List (String × GitlabProject))
    (hquiet : ∀ pid c, remote.issuesUpdatedAfter pid (clock c) = [] ∧
      remote.mergeRequestsUpdatedAfter pid (clock c) = [])
    (cache : List (String × SerProject)) : ∀ (st st' : SyncState),
    cache_pass remote clock increment cache st = Except.ok st' →
    (∀ kv ∈ cache, ∃ p1, dictLookup base kv.1 = some p1 ∧ kv.2 = p1.to_dict ∧
      p1.path = kv.1 ∧ ∃ c, p1.last_update = clock c) →
    (∀ name p2, dictLookup st.projects name = some p2 →
      ∃ p1, dictLookup base name = some p1 ∧ p2.issues = p1.issues ∧
        p2.merge_requests = p1.merge_requests) →
    ∀ name p2, dictLookup st'.projects name = some p2 →
      ∃ p1, dictLookup base name = some p1 ∧ p2.issues = p1.issues ∧
        p2.merge_requests = p1.merge_requests := by
  induction cache with
  | nil =>
    intro st st' h hc hM
    simp only [cache_pass, Except.ok.injEq] at h
    subst h
    exact hM
  | cons entry rest ih =>
    intro st st' h hc hM
    obtain ⟨project_name, ser⟩ := entry
    unfold cache_pass at h
    split at h
    · exact ih st st' h (fun kv hkv => hc kv (List.mem_cons_of_mem _ hkv)) hM
    · next idx hidx =>
      split at h
      · exact Except.noConfusion h
      · next project hdes =>
        split at h
        · exact Except.noConfusion h
        · next updated hupd =>
          obtain ⟨p1, hp1look, hser, hp1path, c, hp1stamp⟩ :=
            hc (project_name, ser) (List.mem_cons_self _ _)
          replace hp1look : dictLookup base project_name = some p1 := hp1look
          replace hser : ser = p1.to_dict := hser
          replace hp1path : p1.path = project_name := hp1path
          have hproj : project = p1 := by
            rw [hser, from_dict_to_dict] at hdes
            exact (Option.some_inj.mp hdes).symm
          subst hproj
          obtain ⟨p', hupd', hpath, hid, hstamp, hiss, hmrs⟩ :=
            update_project_shape remote (clock st.ctr)
              (dictInsert st.projects project.path project) project.path project
              (dictLookup_insert_self _ _ _)
          rw [hupd'] at hupd
          obtain rfl : dictInsert (dictInsert st.projects project.path project)
              project.path p' = updated := Option.some_inj.mp hupd
          rw [dictInsert_dictInsert_same] at h
          rw [hp1stamp, (hquiet project.id c).1] at hiss
          rw [hp1stamp, (hquiet project.id c).2] at hmrs
          have hiss' : p'.issues = project.issues :=
            hiss.trans (by rfl)
          have hmrs' : p'.merge_requests = project.merge_requests :=
            hmrs.trans (by rfl)
          apply ih _ st' h (fun kv hkv => hc kv (List.mem_cons_of_mem _ hkv))
          intro name p2 hlook
          replace hlook : dictLookup (dictInsert st.projects project.path p') name =
              some p2 := hlook
          rw [dictLookup_insert] at hlook
          by_cases hnk : project.path = name
          · rw [if_pos hnk] at hlook
            obtain rfl : p' = p2 := Option.some_inj.mp hlook
            refine ⟨project, ?_, hiss', hmrs'⟩
            rw [← hnk, hp1path]
            exact hp1look
          · rw [if_neg hnk] at hlook
            exact hM name p2 hlook

/-- After a successful pass, the in-memory map is well-formed and every
requested path that appears in the remote catalog is present. -/
theorem load_projects_memory (remote : Remote) (clock : Nat → String)
    (indexFile : Option (Except String (List (String × SerProject))))
    (requested : List String) (st : SyncState) (cache : List (String × SerProject))
    (hcache : load_state indexFile = Except.ok cache)
    (hwf : ∀ kv ∈ cache, ∀ p, GitlabProject.from_dict kv.2 = some p → p.path = kv.1)
    (h : load_projects remote clock indexFile requested = Except.ok st) :
    MemOK clock st.projects ∧
    (∀ q ∈ requested, (∃ e ∈ remote.projectsList, e.path_with_namespace = q) →
      q ∈ dictKeys st.projects) := by
  unfold load_projects at h
  split at h
  · exact Except.noConfusion h
  · split at h
    · next hbad =>
      rw [hcache] at hbad
      exact Except.noConfusion hbad
    · next cache₀ hcache₀ =>
      rw [hcache] at hcache₀
      obtain rfl : cache = cache₀ := Except.ok.inj hcache₀
      dsimp only at h
      split at h
      · exact Except.noConfusion h
      · next st₀ hcp =>
        obtain ⟨hmemf, hmono, hcov⟩ := cache_pass_memory remote clock
          (100 / requested.length) cache _ st₀ hcp
        have hmem₀ : MemOK clock st₀.projects := by
          apply hmemf
          exact ⟨fun kv hkv => absurd hkv (by simp), by simp [dictKeys]⟩
        simp only [Except.ok.injEq] at h
        by_cases hpos : st₀.requested.length > 0
        · rw [if_pos hpos] at h
          obtain ⟨hfok, hfmono, hfcov⟩ := fetch_projects_memory remote clock
            (100 / requested.length) remote.projectsList st₀
          subst h
          refine ⟨hfok hmem₀, ?_⟩
          intro q hq hex
          by_cases hq₀ : q ∈ st₀.requested
          · exact hfcov q hq₀ hex
          · exact hfmono q (hcov hwf q hq hq₀)
        · rw [if_neg hpos] at h
          subst h
          refine ⟨hmem₀, ?_⟩
          intro q hq hex
          have hq₀ : ¬ q ∈ st₀.requested := by
            intro hmem
            exact hpos (List.length_pos.mpr (List.ne_nil_of_mem hmem))
          exact hcov hwf q hq hq₀

end GitlabLs

namespace GitlabLs

/-- Claim C2: running the synchronization pass twice over the same
duplicate-free requested list — the second run reading the snapshot the
first run saved — with the remote reporting no objects changed after any
timestamp the engine issued, leaves every record of every project in the
second run's index identical to the record after the first run.  The
initial cache is assumed well-formed (each entry keyed by its record's
path, as `save_state` always writes it). -/
theorem sync_pass_idempotent (remote : Remote) (clock : Nat → String)
    (cache₀ : List (String × SerProject)) (requested : List String)
    (st1 st2 : SyncState)
    (hnodup : requested.Nodup)
    (hwf : ∀ kv ∈ cache₀, ∀ p, GitlabProject.from_dict kv.2 = some p → p.path = kv.1)
    (hquiet : ∀ pid c, remote.issuesUpdatedAfter pid (clock c) = [] ∧
      remote.mergeRequestsUpdatedAfter pid (clock c) = [])
    (h1 : load_projects remote clock (some (Except.ok cache₀)) requested = Except.ok st1)
    (h2 : load_projects remote clock (some (Except.ok (save_state st1.projects)))
      requested = Except.ok st2) :
    ∀ name p2, dictLookup st2.projects name = some p2 →
      ∃ p1, dictLookup st1.projects name = some p1 ∧
        p2.issues = p1.issues ∧ p2.merge_requests = p1.merge_requests := by
  obtain ⟨hmemOK1, hcov1⟩ := load_projects_memory remote clock
    (some (Except.ok cache₀)) requested st1 cache₀ rfl hwf h1
  have hc₁ : ∀ kv ∈ save_state st1.projects,
      ∃ p1, dictLookup st1.projects kv.1 = some p1 ∧ kv.2 = p1.to_dict ∧
        p1.path = kv.1 ∧ ∃ c, p1.last_update = clock c := by
    intro kv hkv
    obtain ⟨⟨name, p1⟩, hmem, hkvq⟩ := List.mem_map.mp hkv
    obtain ⟨hpath, hstamp⟩ := hmemOK1.1 (name, p1) hmem
    refine ⟨p1, ?_, ?_, ?_, hstamp⟩
    · rw [← hkvq]
      exact dictLookup_of_mem_of_nodup st1.projects name p1 hmemOK1.2 hmem
    · rw [← hkvq]
    · rw [← hkvq]
      exact hpath
  unfold load_projects at h2
  split at h2
  · exact Except.noConfusion h2
  · split at h2
    · next hbad => exact Except.noConfusion hbad
    · next cache₂ hcache₂ =>
      obtain rfl : save_state st1.projects = cache₂ := Except.ok.inj hcache₂
      dsimp only at h2
      split at h2
      · exact Except.noConfusion h2
      · next st₂₀ hcp₂ =>
        have hrec := cache_pass_records remote clock (100 / requested.length)
          st1.projects hquiet (save_state st1.projects) _ st₂₀ hcp₂ hc₁
          (fun name p2 hl => absurd hl (by simp))
        have hreqfacts := cache_pass_requested remote clock (100 / requested.length)
          (save_state st1.projects) _ st₂₀ hcp₂
        have hnofetch : ∀ e ∈ remote.projectsList,
            ¬ e.path_with_namespace ∈ st₂₀.requested := by
          intro e he hmem
          have hqreq : e.path_with_namespace ∈ requested := hreqfacts.1.subset hmem
          have hqkeys : e.path_with_namespace ∈ dictKeys st1.projects :=
            hcov1 _ hqreq ⟨e, he, rfl⟩
          rw [← dictKeys_save_state] at hqkeys
          exact hreqfacts.2 hnodup _ hqkeys hmem
        simp only [Except.ok.injEq] at h2
        by_cases hpos : st₂₀.requested.length > 0
        · rw [if_pos hpos] at h2
          have hfp := fetch_projects_noop remote clock (100 / requested.length)
            remote.projectsList st₂₀ hnofetch
          intro name p2 hlook
          rw [← h2, hfp] at hlook
          exact hrec name p2 hlook
        · rw [if_neg hpos] at h2
          subst h2
          exact hrec

end GitlabLs

namespace GitlabLs

def exRemoteQuiet : Remote :=
  { issuesUpdatedAfter := fun _ _ => []
    issuesAll := fun _ => [exData7]
    mergeRequestsUpdatedAfter := fun _ _ => []
    mergeRequestsAll := fun _ => []
    projectsList := [{ id := 1, path_with_namespace := "a/b" }] }

theorem sync_pass_idempotent_witness :
    List.Nodup ["a/b"] ∧
    ∃ st1 st2,
      load_projects exRemoteQuiet constClock
        (some (Except.ok ([] : List (String × SerProject)))) ["a/b"] = Except.ok st1 ∧
      load_projects exRemoteQuiet constClock
        (some (Except.ok (save_state st1.projects))) ["a/b"] = Except.ok st2 ∧
      ∀ name p2, dictLookup st2.projects name = some p2 →
        ∃ p1, dictLookup st1.projects name = some p1 ∧
          p2.issues = p1.issues ∧ p2.merge_requests = p1.merge_requests :=
  ⟨by decide, _, _, rfl, rfl,
    sync_pass_idempotent exRemoteQuiet constClock [] ["a/b"] _ _ (by decide)
      (fun kv hkv => absurd hkv (by simp)) (fun pid c => ⟨rfl, rfl⟩) rfl rfl⟩

end GitlabLs

namespace GitlabLs

/-- The spec's URL-resolution scenario: in a line containing the full URL
of issue 42 of `group/proj` on `https://git.example.com`, the pattern finds
exactly one match, spanning the full URL substring (offsets 4 to 50), with
project path `group/proj`, kind issue and IID 42; it resolves when that
issue is indexed and yields nothing when the project is absent. -/
def exProjGroup : GitlabProject :=
  { id := 9, path := "group/proj", last_update := "T0",
    issues := [(42, exObjClosed7)], merge_requests := [] }

theorem url_resolution_scenario :
    (finditer "https://git.example.com"
        "see https://git.example.com/group/proj/-/issues/42 for details" =
      [{ pathChars := "group/proj".data, isIssue := true, digitChars := "42".data,
         startPos := 4, stopPos := 50 }]) ∧
    get_gitlab_objects_from_line "https://git.example.com" [("group/proj", exProjGroup)]
      "see https://git.example.com/group/proj/-/issues/42 for details" =
      [(exObjClosed7, 4, 50)] ∧
    get_gitlab_objects_from_line "https://git.example.com" []
      "see https://git.example.com/group/proj/-/issues/42 for details" = [] := by
  refine ⟨by decide, by decide, by decide⟩

end GitlabLs
